import Mathlib

/-
  Verification development for the bg_ai Monte Carlo Tree Search library.

  Shallow embedding of src/src/ai/game_tree/{mod,node,edge,score}.rs,
  src/src/ai/random_rollout.rs, src/src/ai/ismcts.rs and src/src/ai/mcts.rs.

  Modelling conventions:
  - The Rust code is generic over a game (the State / Action / Player traits of
    src/src/lib.rs) and an RNG (rand::Rng).  Here a `Game R S A P` structure
    bundles those trait methods; RNG state `R` is threaded explicitly, so a
    method taking `&mut R` becomes a function returning a `... × R` pair.
  - `u32` counters are modelled as `Nat` (no run reaches 2^32 increments).
  - `f32` scores are modelled as `ℚ`; every score update in the source is a
    `+= 1.0` starting from `0.0`, which is exact in `f32` far beyond any
    realistic visit count, so the idealisation is faithful on the reachable
    values.  The UCB1 value of a visited node, `score/visits + √2·√(ln(pv+1)/v)`,
    is transcendental; it is modelled symbolically by the `FVal` type, and the
    `f32` comparison between two such finite values is a parameter of the
    `Game` structure (`finGt`).  Comparisons the code makes against the
    sentinels `f32::MIN` (the fold seed in `select`) and `f32::MAX` (the value
    given to unvisited nodes) are fixed by the `FVal` order: every finite value
    produced by the program lies strictly between the two sentinels.
  - Rust panics (`panic!`, `unwrap`) are modelled by `Res.panic`; loops without
    a structural bound (the selection descent and the random rollout) take
    explicit fuel and return `Res.noFuel` when it runs out.
  - `petgraph::Graph` is modelled as an arena: `nodes` and `edges` lists whose
    positions are the stable `NodeIndex` / `EdgeIndex` values.  `add_node` and
    `add_edge` append.  `edges_directed` iterates a node's edges most recently
    added first, which is petgraph's documented iteration order; hence
    `node_children` reverses the insertion-ordered filter, `edge_to_parent`
    takes the *last* matching edge of the list, and `edges_connecting(..).next()`
    is the last inserted connecting edge.
  - `HashMap<P, f32>` (node score maps) and `HashMap<&A, HashMap<P, f32>>`
    (IS-MCTS aggregation) are modelled as insertion-ordered association lists;
    the source's iteration order over a `HashMap` is arbitrary, and no claim
    settled here depends on it beyond "some deterministic order".
-/

namespace BgAi

/-- Result of running a piece of Rust code: a value, a panic, or fuel
exhaustion (the Lean-side bound on source loops that have no structural
termination measure). -/
inductive Res (α : Type) where
  | ok (val : α)
  | panic (msg : String)
  | noFuel
deriving DecidableEq

def Res.bind {α β : Type} : Res α → (α → Res β) → Res β
  | .ok a, f => f a
  | .panic m, _ => .panic m
  | .noFuel, _ => .noFuel

def Res.isPanic {α : Type} : Res α → Bool
  | .panic _ => true
  | _ => false

/-- `Outcome` from src/src/lib.rs. -/
inductive GOutcome (P : Type) where
  | winner (p : P)
  | draw (ps : List P)
  | escape (reason : String)
deriving DecidableEq

/-- The comparison model for `f32` `>` between two finite UCB1 values
`exploit + √2·√(ln (pv + 1) / v)`; each side is recorded as its exploitation
component together with `some (pv, v)` for the exploration term (or `none` for
the literal `0.0` the source returns on a dangling node index). -/
abbrev FinGt : Type := ℚ → Option (Nat × Nat) → ℚ → Option (Nat × Nat) → Bool

/-- The `State` + `Determinable` traits of src/src/lib.rs and
src/src/ai/ismcts.rs, together with the RNG operations the engine consumes
and the `f32` comparison model (see the file header). -/
structure Game (R S A P : Type) where
  actions : S → List A
  applyAction : R → S → A → Option S × R
  outcome : S → Option (GOutcome P)
  currentPlayer : S → P
  determine : R → S → P → S × R
  nextU32 : R → Nat × R
  genRange : R → Nat → Nat × R
  finGt : FinGt

/-- `GameTreeNode` from src/src/ai/game_tree/node.rs; the score `HashMap` is
an insertion-ordered association list. -/
structure GTNode (S P : Type) where
  state : S
  num_visits : Nat
  scores : List (P × ℚ)
deriving DecidableEq

def GTNode.new {S P : Type} (s : S) : GTNode S P :=
  { state := s, num_visits := 0, scores := [] }

/-- `GameTreeEdge` from src/src/ai/game_tree/edge.rs; note `new` starts the
edge counter at 1. -/
structure GTEdge (A : Type) where
  action : A
  num_visits : Nat
deriving DecidableEq

def GTEdge.new {A : Type} (a : A) : GTEdge A :=
  { action := a, num_visits := 1 }

/-- One edge of the petgraph arena: endpoints plus weight.  Its position in
`GameTree.edges` is its `EdgeIndex`. -/
structure EdgeEntry (A : Type) where
  source : Nat
  target : Nat
  weight : GTEdge A
deriving DecidableEq

/-- `GameTree` from src/src/ai/game_tree/mod.rs.  The source also stores
`constant_of_exploration = √2`; that constant only occurs inside the
transcendental exploration term, which is kept symbolic in `FVal`, so it has
no separate field here. -/
structure GameTree (S A P : Type) where
  root_node_idx : Nat
  nodes : List (GTNode S P)
  edges : List (EdgeEntry A)
deriving DecidableEq

/-- `GameTree::new`. -/
def GameTree.new {S A P : Type} (s : S) : GameTree S A P :=
  { root_node_idx := 0, nodes := [GTNode.new s], edges := [] }

/-- `GameTreeNode::get_player_score`: a missing key reads as `0.0`. -/
def getScore {P : Type} [DecidableEq P] : List (P × ℚ) → P → ℚ
  | [], _ => 0
  | (q, v) :: rest, p => if p = q then v else getScore rest p

/-- `*scores.entry(p).or_insert(0.0) += d`: update the entry for `p`,
inserting `d` at the end when absent. -/
def addScore {P : Type} [DecidableEq P] : List (P × ℚ) → P → ℚ → List (P × ℚ)
  | [], p, d => [(p, d)]
  | (q, v) :: rest, p, d =>
    if q = p then (q, v + d) :: rest else (q, v) :: addScore rest p d

/-- `node_children`: targets of the outgoing edges, iterated most recently
added first (petgraph iteration order). -/
def node_children {S A P : Type} (t : GameTree S A P) (idx : Nat) : List Nat :=
  ((t.edges.filter (fun e => e.source == idx)).reverse).map (fun e => e.target)

/-- `is_leaf_node`: no outgoing edges. -/
def is_leaf_node {S A P : Type} (t : GameTree S A P) (idx : Nat) : Bool :=
  (t.edges.filter (fun e => e.source == idx)).length == 0

/-- The last entry of `l` (together with its position, offset by `base`)
whose target is `idx`.  This is `incoming_edges[0]` of the source's
`edge_to_parent`, because petgraph iterates incoming edges most recently
added first. -/
def lastIncoming {A : Type} : List (EdgeEntry A) → Nat → Nat → Option (Nat × EdgeEntry A)
  | [], _, _ => none
  | e :: rest, base, idx =>
    match lastIncoming rest (base + 1) idx with
    | some r => some r
    | none => if e.target == idx then some (base, e) else none

/-- `edge_to_parent`: the first incoming edge in petgraph iteration order,
returned with its `EdgeIndex`. -/
def edge_to_parent {S A P : Type} (t : GameTree S A P) (idx : Nat) :
    Option (Nat × EdgeEntry A) :=
  lastIncoming t.edges 0 idx

/-- `parent_node_idx`. -/
def parent_node_idx {S A P : Type} (t : GameTree S A P) (idx : Nat) : Option Nat :=
  (edge_to_parent t idx).map (fun ie => ie.2.source)

/-- `parent_visits`: 0 when there is no parent or the parent index dangles. -/
def parent_visits {S A P : Type} (t : GameTree S A P) (idx : Nat) : Nat :=
  match parent_node_idx t idx with
  | none => 0
  | some pidx =>
    match t.nodes.get? pidx with
    | some n => n.num_visits
    | none => 0

/-- The `f32` values flowing through `select`: the fold seed `f32::MIN`, the
sentinel `f32::MAX` given to unvisited nodes, and the finite values
`exploit + √2·√(ln (pv+1) / v)` (exploration part `some (pv, v)`; `none` for
the plain literal `0.0`). -/
inductive FVal where
  | minv : FVal
  | finv (exploit : ℚ) (explore : Option (Nat × Nat)) : FVal
  | maxv : FVal
deriving DecidableEq

/-- `f32` strict `>` on `FVal`: the sentinels bound every finite value the
program produces; two finite values are compared by the `finGt` parameter. -/
def FVal.gtB (fg : FinGt) : FVal → FVal → Bool
  | .maxv, .maxv => false
  | .maxv, _ => true
  | .finv _ _, .maxv => false
  | .finv e1 x1, .finv e2 x2 => fg e1 x1 e2 x2
  | .finv _ _, .minv => true
  | .minv, _ => false

/-- `ucbt_value`: `0.0` on a dangling index, `f32::MAX` for an unvisited
node, otherwise the symbolic finite UCB1 value. -/
def ucbt_value {S A P : Type} [DecidableEq P] (t : GameTree S A P) (idx : Nat) (persp : P) :
    FVal :=
  match t.nodes.get? idx with
  | none => .finv 0 none
  | some node =>
    if node.num_visits == 0 then .maxv
    else .finv (getScore node.scores persp / (node.num_visits : ℚ))
               (some (parent_visits t idx, node.num_visits))

/-- The fold step of `select`. -/
def selectStep {S A P : Type} [DecidableEq P] (fg : FinGt) (t : GameTree S A P) (persp : P)
    (acc : Option Nat × FVal) (child : Nat) : Option Nat × FVal :=
  let ucb := ucbt_value t child persp
  if FVal.gtB fg ucb acc.2 then (some child, ucb) else acc

/-- `select`: fold over the children starting from `(None, f32::MIN)`,
keeping the strictly larger UCB1 value; panics when there is no child. -/
def select {S A P : Type} [DecidableEq P] (fg : FinGt) (t : GameTree S A P) (idx : Nat)
    (persp : P) : Res Nat :=
  let children := node_children t idx
  let selected := children.foldl (selectStep fg t persp) ((none : Option Nat), FVal.minv)
  match selected.1 with
  | some s => .ok s
  | none => .panic (r"could not select a node, this node has no children")

/-- One step of the `expand` loop: `graph.add_node(GameTreeNode::new(state))`
followed by `graph.add_edge(node_idx, new_node_idx, GameTreeEdge::new(action))`;
petgraph's `add_node` returns the next index, i.e. the current node count. -/
def addChild {S A P : Type} (t : GameTree S A P) (idx : Nat) (a : A) (s2 : S) :
    GameTree S A P :=
  { t with nodes := t.nodes ++ [GTNode.new s2],
           edges := t.edges ++ [{ source := idx, target := t.nodes.length,
                                  weight := GTEdge.new a }] }

/-- The `for action in actions` loop of `expand`: each step re-reads the node,
applies the action (unwrap), and appends the new node and its edge. -/
def expandGo {R S A P : Type} (g : Game R S A P) (idx : Nat) :
    List A → R → GameTree S A P → Res (R × GameTree S A P)
  | [], rng, t => .ok (rng, t)
  | a :: rest, rng, t =>
    match t.nodes.get? idx with
    | none => .panic (r"get_node: invalid node index")
    | some node =>
      match g.applyAction rng node.state a with
      | (none, _) => .panic (r"apply_action unwrap failed in expand")
      | (some s2, rng2) => expandGo g idx rest rng2 (addChild t idx a s2)

/-- `expand`: fail fast when the node is dangling or has no actions. -/
def expand {R S A P : Type} (g : Game R S A P) (rng : R) (t : GameTree S A P) (idx : Nat) :
    Res (R × GameTree S A P) :=
  match t.nodes.get? idx with
  | none => .panic (r"get_node: invalid node index")
  | some node =>
    let actions := g.actions node.state
    if actions.length == 0 then .panic (r"no actions to expand into")
    else expandGo g idx actions rng t

/-- The selection descent of `search`: `while !is_leaf { current = select;
visited.push(current) }`, bounded by fuel. -/
def descend {S A P : Type} [DecidableEq P] (fg : FinGt) (t : GameTree S A P) (persp : P) :
    Nat → Nat → List Nat → Res (Nat × List Nat)
  | fuel, cur, visited =>
    if is_leaf_node t cur then .ok (cur, visited)
    else
      match fuel with
      | 0 => .noFuel
      | fuel2 + 1 =>
        match select fg t cur persp with
        | .ok next => descend fg t persp fuel2 next (visited ++ [next])
        | .panic m => .panic m
        | .noFuel => .noFuel

/-- `random_rollout` from src/src/ai/random_rollout.rs: clone the state and
play uniformly random legal actions until an outcome appears; `Escape` when a
non-terminal state has no actions.  `SliceRandom::choose` is modelled by
`genRange` reduced mod the slice length. -/
def random_rollout {R S A P : Type} (g : Game R S A P) :
    Nat → S → R → Res (GOutcome P × R)
  | fuel, s, rng =>
    match g.outcome s with
    | some oc => .ok (oc, rng)
    | none =>
      match g.actions s with
      | [] => .ok (.escape (r"No actions available."), rng)
      | a :: rest =>
        let pair := g.genRange rng (rest.length + 1)
        let chosen := (a :: rest).getD (pair.1 % (rest.length + 1)) a
        match g.applyAction pair.2 s chosen with
        | (none, _) => .panic (r"apply_action unwrap failed in rollout")
        | (some s2, rng2) =>
          match fuel with
          | 0 => .noFuel
          | fuel2 + 1 => random_rollout g fuel2 s2 rng2

/-- The score-map update of one back-propagation step: `Winner` credits the
winner, `Draw` credits every listed player, `Escape` changes nothing. -/
def applyOutcomeScores {P : Type} [DecidableEq P] (oc : GOutcome P) (sc : List (P × ℚ)) :
    List (P × ℚ) :=
  match oc with
  | .winner p => addScore sc p 1
  | .draw ps => ps.foldl (fun s q => addScore s q 1) sc
  | .escape _ => sc

/-- The `Winner` arm's edge update in `back_propagate`:
`if let Some(edge) = self.edge_to_parent(idx) { edge_weight_mut(edge.id()).unwrap().num_visits += 1 }`. -/
def bumpParentEdge {S A P : Type} (t : GameTree S A P) (idx : Nat) : GameTree S A P :=
  match edge_to_parent t idx with
  | some ie =>
    let e2 : EdgeEntry A :=
      { ie.2 with weight := { ie.2.weight with num_visits := ie.2.weight.num_visits + 1 } }
    { t with edges := t.edges.set ie.1 e2 }
  | none => t

/-- `back_propagate`: for every visited node increment `num_visits`, update
the scores from the outcome, and (only on `Winner`) increment the edge to the
parent. -/
def back_propagate {S A P : Type} [DecidableEq P] :
    GameTree S A P → List Nat → GOutcome P → Res (GameTree S A P)
  | t, [], _ => .ok t
  | t, idx :: rest, oc =>
    match t.nodes.get? idx with
    | none => .panic (r"get_node_mut: invalid node index")
    | some node =>
      let node2 : GTNode S P :=
        { node with num_visits := node.num_visits + 1,
                    scores := applyOutcomeScores oc node.scores }
      let t2 : GameTree S A P := { t with nodes := t.nodes.set idx node2 }
      let t3 : GameTree S A P :=
        match oc with
        | .winner _ => bumpParentEdge t2 idx
        | _ => t2
      back_propagate t3 rest oc

/-- `search`: one selection / expansion / rollout / back-propagation cycle. -/
def search {R S A P : Type} [DecidableEq P] (g : Game R S A P) (fuel : Nat) (rng : R)
    (t : GameTree S A P) : Res (R × GameTree S A P) :=
  match t.nodes.get? t.root_node_idx with
  | none => .panic (r"get_node: invalid node index")
  | some rootNode =>
    let persp := g.currentPlayer rootNode.state
    Res.bind (descend g.finGt t persp fuel t.root_node_idx [t.root_node_idx])
      (fun cv =>
        match t.nodes.get? cv.1 with
        | none => .panic (r"get_node: invalid node index")
        | some node =>
          match g.outcome node.state with
          | some oc =>
            Res.bind (back_propagate t cv.2 oc) (fun t2 => .ok (rng, t2))
          | none =>
            Res.bind (expand g rng t cv.1) (fun rt =>
              Res.bind (select g.finGt rt.2 cv.1 persp) (fun newIdx =>
                match rt.2.nodes.get? cv.1 with
                | none => .panic (r"get_node: invalid node index")
                | some node2 =>
                  Res.bind (random_rollout g fuel node2.state rt.1) (fun or2 =>
                    Res.bind (back_propagate rt.2 (cv.2 ++ [newIdx]) or2.1)
                      (fun t3 => .ok (or2.2, t3))))))

/-- `search_n`: iterate `search`. -/
def search_n {R S A P : Type} [DecidableEq P] (g : Game R S A P) (fuel : Nat) :
    R → GameTree S A P → Nat → Res (R × GameTree S A P)
  | rng, t, 0 => .ok (rng, t)
  | rng, t, n + 1 =>
    Res.bind (search g fuel rng t) (fun rt => search_n g fuel rt.1 rt.2 n)

/-- Rust `Iterator::max_by_key`: of several equal maxima, the *last* one in
iteration order is returned. -/
def maxByKeyLast {α : Type} (key : α → Nat) : List α → Option α
  | [] => none
  | x :: xs => some (xs.foldl (fun acc y => if key acc ≤ key y then y else acc) x)

/-- The `max_by_key` closure `|node_idx| get_node(node_idx).num_visits`; the
source's `get_node` panics on a dangling index, which no well-formed tree
reaches, so a dangling index reads as 0 here. -/
def visits_at {S A P : Type} (t : GameTree S A P) (c : Nat) : Nat :=
  match t.nodes.get? c with
  | some nd => nd.num_visits
  | none => 0

/-- `best_action`: the action on the edge to the most visited root child. -/
def best_action {S A P : Type} (t : GameTree S A P) : Option A :=
  match maxByKeyLast (visits_at t) (node_children t t.root_node_idx) with
  | none => none
  | some c =>
    match edge_to_parent t c with
    | some ie => some ie.2.weight.action
    | none => none

/-- First-maximum variant of `max_by_key`: of several equal maxima, the
*first* one in iteration order is kept (this is what claim C3 asserts, not
what Rust's `max_by_key` does). -/
def maxByKeyFirst {α : Type} (key : α → Nat) : List α → Option α
  | [] => none
  | x :: xs => some (xs.foldl (fun acc y => if key acc < key y then y else acc) x)

/-- The spec's reading of `best_action` ("ties broken by the first maximum
encountered in child-iteration order"), for comparison with the source's
`best_action`. -/
def best_action_first {S A P : Type} (t : GameTree S A P) : Option A :=
  match maxByKeyFirst (visits_at t) (node_children t t.root_node_idx) with
  | none => none
  | some c =>
    match edge_to_parent t c with
    | some ie => some ie.2.weight.action
    | none => none

/-- `Score` from src/src/ai/game_tree/score.rs. -/
structure Score (A P : Type) where
  action : A
  player : P
  score : ℚ
  num_visits : Nat
deriving DecidableEq

/-- `edges_connecting(root, child).next()`: the most recently added edge from
the root to `child` (petgraph iterates newest first). -/
def lastConnecting {S A P : Type} (t : GameTree S A P) (child : Nat) :
    Option (EdgeEntry A) :=
  (t.edges.filter (fun e => e.source == t.root_node_idx && e.target == child)).getLast?

/-- The per-child record list of `root_scores`, as a pure function: one
record per entry of the child's score map (empty when the child or its edge
is missing; the source panics there, see `rootScoresGo`). -/
def childRecords {S A P : Type} (t : GameTree S A P) (c : Nat) : List (Score A P) :=
  match t.nodes.get? c, lastConnecting t c with
  | some nd, some e =>
    nd.scores.map (fun pv =>
      { action := e.weight.action, player := pv.1, score := pv.2,
        num_visits := nd.num_visits })
  | _, _ => []

/-- The `flat_map` loop of `root_scores`, with the source's `get_node` and
`edges.next().unwrap()` panics made explicit. -/
def rootScoresGo {S A P : Type} (t : GameTree S A P) : List Nat → Res (List (Score A P))
  | [] => .ok []
  | c :: cs =>
    match t.nodes.get? c with
    | none => .panic (r"get_node: invalid node index")
    | some nd =>
      match lastConnecting t c with
      | none => .panic (r"edges_connecting next unwrap failed")
      | some e =>
        Res.bind (rootScoresGo t cs) (fun rest =>
          .ok ((nd.scores.map (fun pv =>
            { action := e.weight.action, player := pv.1, score := pv.2,
              num_visits := nd.num_visits })) ++ rest))

/-- `root_scores`: flattened per-(child, player) statistics of the root's
children. -/
def root_scores {S A P : Type} (t : GameTree S A P) : Res (List (Score A P)) :=
  rootScoresGo t (node_children t t.root_node_idx)

/-- `build_monte_carlo_game_tree` from src/src/ai/mcts.rs. -/
def build_monte_carlo_game_tree {R S A P : Type} [DecidableEq P] (g : Game R S A P)
    (fuel : Nat) (rng : R) (s : S) (num_simulations : Nat) :
    Res (R × GameTree S A P) :=
  search_n g fuel rng (GameTree.new s) num_simulations

/-- `mcts` from src/src/ai/mcts.rs (the mutated RNG is returned alongside the
chosen action). -/
def mcts {R S A P : Type} [DecidableEq P] (g : Game R S A P) (fuel : Nat) (rng : R) (s : S)
    (num_simulations : Nat) : Res (R × Option A) :=
  Res.bind (build_monte_carlo_game_tree g fuel rng s num_simulations)
    (fun rt => .ok (rt.1, best_action rt.2))

/-- `clone_and_advance_rng` from src/src/ai/ismcts.rs: clone, then drain
`delta` 32-bit words. -/
def clone_and_advance_rng {R S A P : Type} (g : Game R S A P) (rng : R) : Nat → R
  | 0 => rng
  | d + 1 => clone_and_advance_rng g (g.nextU32 rng).2 d

/-- The determinization loop of `ismcts`: `count` iterations remain and `i`
is the current `determinization_idx`; each iteration searches a fresh tree on
a determinized state and collects its `root_scores`. -/
def ismctsGo {R S A P : Type} [DecidableEq P] (g : Game R S A P) (fuel : Nat) (state : S)
    (rng : R) (num_simulations : Nat) : Nat → Nat → Res (List (List (Score A P)))
  | 0, _ => .ok []
  | count + 1, i =>
    let rng2 := clone_and_advance_rng g rng i
    let det := g.determine rng2 state (g.currentPlayer state)
    Res.bind (search_n g fuel det.2 (GameTree.new det.1) num_simulations) (fun rt =>
      Res.bind (root_scores rt.2) (fun sc =>
        Res.bind (ismctsGo g fuel state rng num_simulations count (i + 1)) (fun rest =>
          .ok (sc :: rest))))

/-- One aggregation step of `ismcts`:
`total.entry(action).(...).entry(player) += score`. -/
def addTotal {A P : Type} [DecidableEq A] [DecidableEq P] :
    List (A × List (P × ℚ)) → A → P → ℚ → List (A × List (P × ℚ))
  | [], a, p, v => [(a, [(p, v)])]
  | (b, m) :: rest, a, p, v =>
    if b = a then (b, addScore m p v) :: rest else (b, m) :: addTotal rest a p v

/-- The `total_action_scores` aggregation of `ismcts`, over all
determinizations in order. -/
def aggregateScores {A P : Type} [DecidableEq A] [DecidableEq P]
    (dets : List (List (Score A P))) : List (A × List (P × ℚ)) :=
  dets.foldl (fun acc scl => scl.foldl (fun acc2 sc => addTotal acc2 sc.action sc.player sc.score) acc) []

/-- `total_action_scores.iter().max_by(total_cmp on the current player's
entry)`: Rust's `max_by` keeps the *last* maximum in iteration order. -/
def maxByScoreLast {A P : Type} [DecidableEq P] (p : P) :
    List (A × List (P × ℚ)) → Option (A × List (P × ℚ))
  | [] => none
  | x :: xs => some (xs.foldl (fun acc y => if getScore acc.2 p ≤ getScore y.2 p then y else acc) x)

/-- `ismcts` from src/src/ai/ismcts.rs.  Note the final
`max_by(..).unwrap()`: when no determinization produced any score record the
aggregate map is empty and the source panics. -/
def ismcts {R S A P : Type} [DecidableEq A] [DecidableEq P] (g : Game R S A P) (fuel : Nat)
    (state : S) (rng : R) (num_determinizations num_simulations : Nat) : Res (Option A) :=
  Res.bind (ismctsGo g fuel state rng num_simulations num_determinizations 0) (fun dets =>
    let total := aggregateScores dets
    match maxByScoreLast (g.currentPlayer state) total with
    | none => .panic (r"max_by unwrap failed: no aggregated scores")
    | some best => .ok (some best.1))

/-- `MtAgent` from src/src/ai/ismcts.rs. -/
structure MtAgent (P : Type) where
  player : P
  num_determinations : Nat
  num_simulations : Nat

/-- `IsMctsMtAgent::decide` for `MtAgent`: the body of the source method
calls the *serial* `ismcts` entry point. -/
def MtAgent.decide {R S A P : Type} [DecidableEq A] [DecidableEq P] (agent : MtAgent P)
    (g : Game R S A P) (fuel : Nat) (rng : R) (state : S) : Res (Option A) :=
  ismcts g fuel state rng agent.num_determinations agent.num_simulations

/-- `Agent` from src/src/ai/ismcts.rs (the single-threaded agent). -/
structure Agent (P : Type) where
  player : P
  num_determinations : Nat
  num_simulations : Nat

/-- `IsMctsAgent::decide` for `Agent`. -/
def Agent.decide {R S A P : Type} [DecidableEq A] [DecidableEq P] (agent : Agent P)
    (g : Game R S A P) (fuel : Nat) (rng : R) (state : S) : Res (Option A) :=
  ismcts g fuel state rng agent.num_determinations agent.num_simulations

/-- Well-formedness of the arena: the root and every edge endpoint are valid
node indices.  Every tree the engine builds satisfies it. -/
def WF {S A P : Type} (t : GameTree S A P) : Prop :=
  t.root_node_idx < t.nodes.length ∧
  ∀ e ∈ t.edges, e.source < t.nodes.length ∧ e.target < t.nodes.length

section TestGame

/-- States of the concrete two-player test game: `s0` offers two actions,
`w1` is a win for player 1, `w2` a win for player 2. -/
inductive TS where
  | s0 | w1 | w2
deriving DecidableEq

/-- Actions of the test game. -/
inductive TA where
  | a1 | a2
deriving DecidableEq

/-- Players of the test game. -/
inductive TP where
  | p1 | p2
deriving DecidableEq

/-- The concrete test game: from `s0`, action `a1` wins for `p1` and `a2`
wins for `p2`; the RNG is a counter whose draws are its successive values. -/
def TG : Game Nat TS TA TP where
  actions := fun s => match s with
    | .s0 => [.a1, .a2]
    | _ => []
  applyAction := fun r s a => match s, a with
    | .s0, .a1 => (some .w1, r)
    | .s0, .a2 => (some .w2, r)
    | s, _ => (some s, r)
  outcome := fun s => match s with
    | .s0 => none
    | .w1 => some (.winner .p1)
    | .w2 => some (.winner .p2)
  currentPlayer := fun _ => .p1
  determine := fun r s _ => (s, r)
  nextU32 := fun r => (r, r + 1)
  genRange := fun r _ => (r, r + 1)
  finGt := fun e1 _ e2 _ => decide (e2 < e1)

/-- The explicit state of the tree produced by `expand` from a fresh tree on
`TS.s0` (both actions applied, edge counters start at 1). -/
def CT1 : GameTree TS TA TP :=
  { root_node_idx := 0,
    nodes := [{ state := .s0, num_visits := 0, scores := [] },
              { state := .w1, num_visits := 0, scores := [] },
              { state := .w2, num_visits := 0, scores := [] }],
    edges := [{ source := 0, target := 1, weight := { action := .a1, num_visits := 1 } },
              { source := 0, target := 2, weight := { action := .a2, num_visits := 1 } }] }

/-- The explicit state of the tree after one `search` iteration of `TG` from
a fresh tree on `TS.s0` with RNG 0: the selected child is node 2 (state
`w2`), and the back-propagated outcome is `Winner p1` — the rollout ran from
the parent state `s0`, not from the selected child's state `w2`. -/
def CT2 : GameTree TS TA TP :=
  { root_node_idx := 0,
    nodes := [{ state := .s0, num_visits := 1, scores := [(.p1, 1)] },
              { state := .w1, num_visits := 0, scores := [] },
              { state := .w2, num_visits := 1, scores := [(.p1, 1)] }],
    edges := [{ source := 0, target := 1, weight := { action := .a1, num_visits := 1 } },
              { source := 0, target := 2, weight := { action := .a2, num_visits := 2 } }] }

/-- A tree whose two root children are tied on `num_visits`, used to settle
the `best_action` tie-breaking claim. -/
def CT3 : GameTree TS TA TP :=
  { root_node_idx := 0,
    nodes := [{ state := .s0, num_visits := 2, scores := [] },
              { state := .w1, num_visits := 1, scores := [(.p1, 1)] },
              { state := .w2, num_visits := 1, scores := [(.p2, 1)] }],
    edges := [{ source := 0, target := 1, weight := { action := .a1, num_visits := 1 } },
              { source := 0, target := 2, weight := { action := .a2, num_visits := 1 } }] }

/-- The score increment a single back-propagation step gives player `p`
under outcome `oc` (the code's `Winner` / `Draw` / `Escape` arms). -/
def outcomeDelta {P : Type} [DecidableEq P] (oc : GOutcome P) (p : P) : ℚ :=
  match oc with
  | .winner q => if p = q then 1 else 0
  | .draw ps => (ps.count p : ℚ)
  | .escape _ => 0

/-- The per-node score invariant of claim C6: every player's accumulated
score is at most the node's visit count. -/
def ScoreInv {S A P : Type} [DecidableEq P] (t : GameTree S A P) : Prop :=
  ∀ nd ∈ t.nodes, ∀ p : P, getScore nd.scores p ≤ (nd.num_visits : ℚ)

/-- `Draw` outcomes carry a duplicate-free player list (the spec's
"Draw(set of P)" game contract). -/
def drawNodup {P : Type} : GOutcome P → Prop
  | .draw ps => ps.Nodup
  | _ => True

end TestGame

/-! ### General lemmas about the embedded operations -/

theorem Res.bind_ok {α β : Type} (a : α) (f : α → Res β) :
    Res.bind (.ok a) f = f a := rfl

theorem Res.bind_assoc {α β γ : Type} (x : Res α) (f : α → Res β) (g : β → Res γ) :
    Res.bind (Res.bind x f) g = Res.bind x (fun a => Res.bind (f a) g) := by
  cases x <;> rfl

theorem getScore_addScore {P : Type} [DecidableEq P] (sc : List (P × ℚ)) (q p : P) (d : ℚ) :
    getScore (addScore sc q d) p = getScore sc p + if p = q then d else 0 := by
  induction sc with
  | nil =>
    by_cases h : p = q <;> simp [addScore, getScore, h]
  | cons e rest ih =>
    obtain ⟨r, v⟩ := e
    by_cases h1 : r = q
    · subst h1
      by_cases h2 : p = r <;> simp [addScore, getScore, h2]
    · by_cases h2 : p = r
      · have h3 : ¬ p = q := by
          rw [h2]
          exact h1
        simp [addScore, getScore, h1, h2, h3]
      · simp [addScore, getScore, h1, h2, ih]

theorem getScore_foldl_addScore {P : Type} [DecidableEq P] (ps : List P) (sc : List (P × ℚ))
    (p : P) :
    getScore (ps.foldl (fun s q => addScore s q 1) sc) p = getScore sc p + (ps.count p : ℚ) := by
  induction ps generalizing sc with
  | nil => simp
  | cons q rest ih =>
    rw [List.foldl_cons, ih, getScore_addScore, List.count_cons]
    by_cases h : p = q
    · subst h
      simp only [if_pos rfl, beq_self_eq_true, if_true]
      push_cast
      ring
    · have h2 : (q == p) = false := by
        simp only [beq_eq_false_iff_ne, ne_eq]
        exact fun hh => h hh.symm
      simp [h, h2]

theorem getScore_applyOutcomeScores {P : Type} [DecidableEq P] (oc : GOutcome P)
    (sc : List (P × ℚ)) (p : P) :
    getScore (applyOutcomeScores oc sc) p = getScore sc p + outcomeDelta oc p := by
  cases oc with
  | winner q => simp [applyOutcomeScores, outcomeDelta, getScore_addScore]
  | draw ps => simp [applyOutcomeScores, outcomeDelta, getScore_foldl_addScore]
  | escape m => simp [applyOutcomeScores, outcomeDelta]

theorem mem_node_children {S A P : Type} (t : GameTree S A P) (idx c : Nat) :
    c ∈ node_children t idx ↔ ∃ e ∈ t.edges, e.source = idx ∧ e.target = c := by
  simp only [node_children, List.mem_map, List.mem_reverse, List.mem_filter, beq_iff_eq]
  constructor
  · rintro ⟨e, ⟨he, hs⟩, ht⟩
    exact ⟨e, he, hs, ht⟩
  · rintro ⟨e, he, hs, ht⟩
    exact ⟨e, ⟨he, hs⟩, ht⟩

theorem node_children_ne_nil_of_not_leaf {S A P : Type} (t : GameTree S A P) (idx : Nat)
    (h : is_leaf_node t idx = false) : node_children t idx ≠ [] := by
  unfold is_leaf_node at h
  unfold node_children
  intro hnil
  rcases hfil : t.edges.filter (fun e => e.source == idx) with _ | ⟨e, rest⟩
  · rw [hfil] at h
    simp at h
  · rw [hfil] at hnil
    simp at hnil

theorem lastIncoming_mem {A : Type} :
    ∀ (l : List (EdgeEntry A)) (base idx : Nat) (r : Nat × EdgeEntry A),
      lastIncoming l base idx = some r → r.2 ∈ l ∧ r.2.target = idx
  | [], _, _, _, h => by simp [lastIncoming] at h
  | e :: rest, base, idx, r, h => by
    rw [lastIncoming] at h
    cases hrec : lastIncoming rest (base + 1) idx with
    | some r2 =>
      rw [hrec] at h
      rw [Option.some.injEq] at h
      subst h
      have hm := lastIncoming_mem rest (base + 1) idx r2 hrec
      exact ⟨List.mem_cons_of_mem _ hm.1, hm.2⟩
    | none =>
      rw [hrec] at h
      by_cases htgt : e.target == idx
      · rw [if_pos htgt] at h
        cases h
        exact ⟨List.mem_cons_self _ _, by simpa using htgt⟩
      · rw [if_neg htgt] at h
        cases h

theorem lastIncoming_none_iff {A : Type} :
    ∀ (l : List (EdgeEntry A)) (base idx : Nat),
      lastIncoming l base idx = none ↔ ∀ e ∈ l, e.target ≠ idx
  | [], base, idx => by simp [lastIncoming]
  | e :: rest, base, idx => by
    rw [lastIncoming]
    cases hrec : lastIncoming rest (base + 1) idx with
    | some r2 =>
      simp only [reduceCtorEq, false_iff]
      intro hall
      have : lastIncoming rest (base + 1) idx = none :=
        (lastIncoming_none_iff rest (base + 1) idx).mpr
          (fun e2 he2 => hall e2 (List.mem_cons_of_mem _ he2))
      rw [this] at hrec
      cases hrec
    | none =>
      have hrest := (lastIncoming_none_iff rest (base + 1) idx).mp hrec
      by_cases htgt : e.target = idx
      · simp [htgt]
      · simp only [htgt, beq_iff_eq, if_neg htgt, List.mem_cons]
        constructor
        · intro _ e2 he2
          rcases he2 with rfl | he2
          · exact htgt
          · exact hrest e2 he2
        · intro _
          rfl

theorem edge_to_parent_isSome {S A P : Type} (t : GameTree S A P) (c : Nat)
    (h : ∃ e ∈ t.edges, e.target = c) : ∃ r, edge_to_parent t c = some r := by
  unfold edge_to_parent
  cases hli : lastIncoming t.edges 0 c with
  | some r => exact ⟨r, rfl⟩
  | none =>
    obtain ⟨e, he, htgt⟩ := h
    exact absurd htgt ((lastIncoming_none_iff t.edges 0 c).mp hli e he)

/-! ### Lemmas about `maxByKeyLast` (Rust `max_by_key` keeps the last maximum) -/

theorem foldl_maxLast_split {α : Type} (key : α → Nat) :
    ∀ (xs : List α) (x : α),
      ∃ pre post,
        x :: xs = pre ++ (xs.foldl (fun acc y => if key acc ≤ key y then y else acc) x) :: post ∧
        (∀ z ∈ pre, key z ≤ key (xs.foldl (fun acc y => if key acc ≤ key y then y else acc) x)) ∧
        (∀ z ∈ post, key z < key (xs.foldl (fun acc y => if key acc ≤ key y then y else acc) x))
  | [], x => ⟨[], [], by simp⟩
  | y :: ys, x => by
    by_cases h : key x ≤ key y
    · obtain ⟨pre, post, heq, hpre, hpost⟩ := foldl_maxLast_split key ys y
      rw [List.foldl_cons, if_pos h]
      generalize hgen : ys.foldl (fun acc y => if key acc ≤ key y then y else acc) y = r
        at heq hpre hpost ⊢
      refine ⟨x :: pre, post, ?_, ?_, hpost⟩
      · rw [List.cons_append, ← heq]
      · have hyr : key y ≤ key r := by
          cases pre with
          | nil =>
            rw [List.nil_append] at heq
            injection heq with h1 _
            rw [h1]
          | cons p ps =>
            rw [List.cons_append] at heq
            injection heq with h1 _
            rw [h1]
            exact hpre p (List.mem_cons_self _ _)
        intro z hz
        rcases List.mem_cons.mp hz with rfl | hz2
        · exact le_trans h hyr
        · exact hpre z hz2
    · obtain ⟨pre, post, heq, hpre, hpost⟩ := foldl_maxLast_split key ys x
      rw [List.foldl_cons, if_neg h]
      push_neg at h
      generalize hgen : ys.foldl (fun acc y => if key acc ≤ key y then y else acc) x = r
        at heq hpre hpost ⊢
      cases pre with
      | nil =>
        rw [List.nil_append] at heq
        injection heq with h1 h2
        refine ⟨[], y :: post, ?_, by simp, ?_⟩
        · rw [List.nil_append, ← h1, h2]
        · intro z hz
          rcases List.mem_cons.mp hz with rfl | hz2
          · rw [← h1]
            exact h
          · exact hpost z hz2
      | cons p ps =>
        rw [List.cons_append] at heq
        injection heq with h1 h2
        refine ⟨x :: y :: ps, post, ?_, ?_, hpost⟩
        · rw [h2]
          simp
        · have hxr : key x ≤ key r := by
            rw [h1]
            exact hpre p (List.mem_cons_self _ _)
          intro z hz
          rcases List.mem_cons.mp hz with rfl | hz2
          · exact hxr
          rcases List.mem_cons.mp hz2 with rfl | hz3
          · exact le_of_lt (lt_of_lt_of_le h hxr)
          · exact hpre z (h1 ▸ List.mem_cons_of_mem _ hz3)

theorem maxByKeyLast_spec {α : Type} (key : α → Nat) (l : List α) (r : α)
    (h : maxByKeyLast key l = some r) :
    ∃ pre post, l = pre ++ r :: post ∧ (∀ z ∈ pre, key z ≤ key r) ∧
      (∀ z ∈ post, key z < key r) := by
  cases l with
  | nil => simp [maxByKeyLast] at h
  | cons x xs =>
    rw [maxByKeyLast] at h
    cases h
    exact foldl_maxLast_split key xs x

theorem maxByKeyLast_eq_none_iff {α : Type} (key : α → Nat) (l : List α) :
    maxByKeyLast key l = none ↔ l = [] := by
  cases l <;> simp [maxByKeyLast]

/-! ### Lemmas about `back_propagate` -/

theorem bumpParentEdge_nodes {S A P : Type} (t : GameTree S A P) (idx : Nat) :
    (bumpParentEdge t idx).nodes = t.nodes := by
  unfold bumpParentEdge
  cases edge_to_parent t idx <;> rfl

theorem bumpParentEdge_root {S A P : Type} (t : GameTree S A P) (idx : Nat) :
    (bumpParentEdge t idx).root_node_idx = t.root_node_idx := by
  unfold bumpParentEdge
  cases edge_to_parent t idx <;> rfl

theorem bumpParentEdge_edges {S A P : Type} (t : GameTree S A P) (idx : Nat) :
    ∀ e ∈ (bumpParentEdge t idx).edges, ∃ e0 ∈ t.edges,
      e.source = e0.source ∧ e.target = e0.target ∧ e.weight.action = e0.weight.action := by
  unfold bumpParentEdge
  cases hie : edge_to_parent t idx with
  | none =>
    intro e he
    exact ⟨e, he, rfl, rfl, rfl⟩
  | some ie =>
    intro e he
    rcases List.mem_or_eq_of_mem_set he with he2 | rfl
    · exact ⟨e, he2, rfl, rfl, rfl⟩
    · exact ⟨ie.2, (lastIncoming_mem t.edges 0 idx ie hie).1, rfl, rfl, rfl⟩

theorem back_propagate_cons {S A P : Type} [DecidableEq P] (t : GameTree S A P) (idx : Nat)
    (rest : List Nat) (oc : GOutcome P) (node : GTNode S P)
    (hnode : t.nodes.get? idx = some node) :
    ∃ t3, back_propagate t (idx :: rest) oc = back_propagate t3 rest oc ∧
      t3.nodes = t.nodes.set idx
        { node with num_visits := node.num_visits + 1,
                    scores := applyOutcomeScores oc node.scores } ∧
      t3.root_node_idx = t.root_node_idx ∧
      (∀ e ∈ t3.edges, ∃ e0 ∈ t.edges, e.source = e0.source ∧ e.target = e0.target ∧
        e.weight.action = e0.weight.action) := by
  rw [back_propagate, hnode]
  refine ⟨_, rfl, ?_, ?_, ?_⟩
  · cases oc with
    | winner q => rw [bumpParentEdge_nodes]
    | draw ps => rfl
    | escape m => rfl
  · cases oc with
    | winner q => rw [bumpParentEdge_root]
    | draw ps => rfl
    | escape m => rfl
  · cases oc with
    | winner q => exact bumpParentEdge_edges _ idx
    | draw ps =>
      intro e he
      exact ⟨e, he, rfl, rfl, rfl⟩
    | escape m =>
      intro e he
      exact ⟨e, he, rfl, rfl, rfl⟩

theorem back_propagate_nil {S A P : Type} [DecidableEq P] (t : GameTree S A P)
    (oc : GOutcome P) : back_propagate t [] oc = .ok t := rfl

theorem back_propagate_cons_none {S A P : Type} [DecidableEq P] (t : GameTree S A P)
    (idx : Nat) (rest : List Nat) (oc : GOutcome P) (hnode : t.nodes.get? idx = none) :
    back_propagate t (idx :: rest) oc = .panic (r"get_node_mut: invalid node index") := by
  rw [back_propagate, hnode]

theorem back_propagate_ok {S A P : Type} [DecidableEq P] :
    ∀ (visited : List Nat) (t : GameTree S A P) (oc : GOutcome P),
      (∀ i ∈ visited, i < t.nodes.length) →
      ∃ t2, back_propagate t visited oc = .ok t2 ∧
        t2.nodes.length = t.nodes.length ∧ t2.root_node_idx = t.root_node_idx ∧
        (∀ e ∈ t2.edges, ∃ e0 ∈ t.edges, e.source = e0.source ∧ e.target = e0.target)
  | [], t, oc, _ => ⟨t, rfl, rfl, rfl, fun e he => ⟨e, he, rfl, rfl⟩⟩
  | idx :: rest, t, oc, hv => by
    have hidx : idx < t.nodes.length := hv idx (List.mem_cons_self _ _)
    cases hnode : t.nodes.get? idx with
    | none =>
      rw [List.get?_eq_none] at hnode
      omega
    | some node =>
      obtain ⟨t3, heq, hnodes, hroot, hedges⟩ := back_propagate_cons t idx rest oc node hnode
      have hlen3 : t3.nodes.length = t.nodes.length := by
        rw [hnodes, List.length_set]
      obtain ⟨t2, h2, hlen2, hroot2, hedges2⟩ := back_propagate_ok rest t3 oc
        (fun i hi => by
          rw [hlen3]
          exact hv i (List.mem_cons_of_mem _ hi))
      refine ⟨t2, ?_, ?_, ?_, ?_⟩
      · rw [heq, h2]
      · rw [hlen2, hlen3]
      · rw [hroot2, hroot]
      · intro e he
        obtain ⟨e1, he1, hs1, ht1⟩ := hedges2 e he
        obtain ⟨e0, he0, hs0, ht0, _⟩ := hedges e1 he1
        exact ⟨e0, he0, hs1.trans hs0, ht1.trans ht0⟩

theorem outcomeDelta_le_one {P : Type} [DecidableEq P] (oc : GOutcome P) (hoc : drawNodup oc)
    (p : P) : outcomeDelta oc p ≤ 1 := by
  cases oc with
  | winner q =>
    by_cases h : p = q <;> simp [outcomeDelta, h]
  | draw ps =>
    have := List.nodup_iff_count_le_one.mp hoc p
    simp only [outcomeDelta]
    exact_mod_cast this
  | escape m => simp [outcomeDelta]

/-! ### Claim theorems -/

/-- Claim C7 (confirmed): `search_n` with 0 iterations returns the RNG and
tree unchanged, a fresh tree consists of exactly one node carrying zero
visits and no edges, and running `a` then `b` iterations is the same
computation as running `a + b` iterations (the RNG is threaded explicitly,
so game semantics are deterministic by construction). -/
theorem C7_theorem {R S A P : Type} [DecidableEq P] (g : Game R S A P) :
    (∀ (fuel : Nat) (rng : R) (t : GameTree S A P), search_n g fuel rng t 0 = .ok (rng, t)) ∧
    (∀ s : S, (GameTree.new s : GameTree S A P).nodes =
        [{ state := s, num_visits := 0, scores := [] }] ∧
      (GameTree.new s : GameTree S A P).edges = []) ∧
    (∀ (fuel : Nat) (rng : R) (t : GameTree S A P) (a b : Nat),
      search_n g fuel rng t (a + b) =
        Res.bind (search_n g fuel rng t a) (fun rt => search_n g fuel rt.1 rt.2 b)) := by
  refine ⟨fun _ _ _ => rfl, fun s => ⟨rfl, rfl⟩, ?_⟩
  intro fuel rng t a b
  induction a generalizing rng t with
  | zero =>
    rw [Nat.zero_add]
    rfl
  | succ a ih =>
    rw [Nat.succ_add, search_n, search_n]
    cases hs : search g fuel rng t with
    | ok rt => simp only [Res.bind, ih]
    | panic m => rfl
    | noFuel => rfl

/-- Claim C9 (confirmed): the body of `MtAgent::decide` in the source calls
the serial `ismcts` entry point (not `ismcts_mt`), so the multithreaded
agent's decision is exactly the serial IS-MCTS result for its stored
parameters. -/
theorem C9_theorem {R S A P : Type} [DecidableEq A] [DecidableEq P] (g : Game R S A P)
    (agent : MtAgent P) (fuel : Nat) (rng : R) (state : S) :
    MtAgent.decide agent g fuel rng state =
      ismcts g fuel state rng agent.num_determinations agent.num_simulations := rfl

/-- Claim C1 is refuted by the code: with `num_determinizations = 0` no
determinization produces a score record, the aggregate map is empty, and the
source's `max_by(..).unwrap()` panics instead of returning `None`; moreover
`mcts` with 0 simulations returns `None` even though the root has legal
actions.  Here `TG.actions TS.s0` is non-empty, yet `ismcts` panics and
`mcts` returns `None`. -/
theorem C1_counterexample :
    ismcts TG 4 TS.s0 0 0 100 = .panic (r"max_by unwrap failed: no aggregated scores") ∧
    mcts TG 4 0 TS.s0 0 = .ok (0, none) ∧
    TG.actions TS.s0 = [TA.a1, TA.a2] := ⟨rfl, rfl, rfl⟩

/-- Claim C1 (amended): `ismcts` never returns `None` — whenever it returns
normally the result is `Some`, and when no determinization produced a score
record it panics on the final `unwrap`; `mcts` returns the `best_action` of
the searched tree, which is `None` whenever the root has no children — in
particular with 0 simulations it returns `None` even when the root has legal
actions. -/
theorem C1_theorem {R S A P : Type} [DecidableEq A] [DecidableEq P] (g : Game R S A P) :
    (∀ (fuel : Nat) (state : S) (rng : R) (nd ns : Nat) (res : Option A),
      ismcts g fuel state rng nd ns = .ok res → ∃ a, res = some a) ∧
    (∀ (fuel : Nat) (rng : R) (s : S), mcts g fuel rng s 0 = .ok (rng, none)) := by
  constructor
  · intro fuel state rng nd ns res h
    unfold ismcts at h
    cases hgo : ismctsGo g fuel state rng ns nd 0 with
    | ok dets =>
      rw [hgo] at h
      simp only [Res.bind] at h
      cases hmax : maxByScoreLast (g.currentPlayer state) (aggregateScores dets) with
      | none =>
        rw [hmax] at h
        cases h
      | some best =>
        rw [hmax] at h
        rw [Res.ok.injEq] at h
        exact ⟨best.1, h.symm⟩
    | panic m =>
      rw [hgo] at h
      simp only [Res.bind] at h
      cases h
    | noFuel =>
      rw [hgo] at h
      simp only [Res.bind] at h
      cases h
  · intro fuel rng s
    rfl

/-- Claim C1 witness: a run in which `ismcts` returns normally indeed yields
`Some`, and the concrete `mcts` boundary case. -/
theorem C1_witness :
    ismcts TG 8 TS.s0 0 1 1 = .ok (some TA.a2) ∧
    (∃ a, (some TA.a2 : Option TA) = some a) ∧
    mcts TG 8 0 TS.s0 0 = .ok (0, none) :=
  ⟨by decide, (C1_theorem TG).1 8 TS.s0 0 1 1 (some TA.a2) (by decide),
    (C1_theorem TG).2 8 0 TS.s0⟩

/-- Claim C3 is refuted on ties: Rust's `max_by_key` keeps the *last* of
several equal maxima in child-iteration order, not the first.  In `CT3` both
root children have `num_visits = 1`; the source's `best_action` returns the
action `a1` of the last tied child in iteration order, while the claim's
first-maximum rule (`best_action_first`) would return `a2`. -/
theorem C3_counterexample :
    best_action CT3 = some TA.a1 ∧ best_action_first CT3 = some TA.a2 ∧
    TA.a1 ≠ TA.a2 := by decide

/-- Claim C3 (amended): `best_action` returns `None` exactly when the root
has no children, and otherwise returns the action on the edge to a
most-visited root child, ties broken by the *last* maximum encountered in
child-iteration order (every later child in the iteration is strictly less
visited). -/
theorem C3_theorem {S A P : Type} (t : GameTree S A P) :
    (best_action t = none ↔ node_children t t.root_node_idx = []) ∧
    (∀ a, best_action t = some a →
      ∃ pre c post, node_children t t.root_node_idx = pre ++ c :: post ∧
        (∀ z ∈ pre, visits_at t z ≤ visits_at t c) ∧
        (∀ z ∈ post, visits_at t z < visits_at t c) ∧
        ∃ ie, edge_to_parent t c = some ie ∧ ie.2.weight.action = a) := by
  constructor
  · constructor
    · intro h
      by_contra hne
      cases hmax : maxByKeyLast (visits_at t) (node_children t t.root_node_idx) with
      | none => exact hne ((maxByKeyLast_eq_none_iff _ _).mp hmax)
      | some c =>
        have hcmem : c ∈ node_children t t.root_node_idx := by
          obtain ⟨pre, post, heq, _, _⟩ := maxByKeyLast_spec _ _ _ hmax
          rw [heq]
          exact List.mem_append_right _ (List.mem_cons_self _ _)
        obtain ⟨e, he, hs, ht⟩ := (mem_node_children t _ c).mp hcmem
        obtain ⟨ie, hie⟩ := edge_to_parent_isSome t c ⟨e, he, ht⟩
        unfold best_action at h
        rw [hmax] at h
        dsimp only at h
        rw [hie] at h
        cases h
    · intro h
      unfold best_action
      rw [(maxByKeyLast_eq_none_iff (visits_at t) (node_children t t.root_node_idx)).mpr h]
  · intro a h
    unfold best_action at h
    cases hmax : maxByKeyLast (visits_at t) (node_children t t.root_node_idx) with
    | none =>
      rw [hmax] at h
      cases h
    | some c =>
      rw [hmax] at h
      dsimp only at h
      cases hie : edge_to_parent t c with
      | none =>
        rw [hie] at h
        cases h
      | some ie =>
        rw [hie] at h
        rw [Option.some.injEq] at h
        obtain ⟨pre, post, heq, hpre, hpost⟩ := maxByKeyLast_spec _ _ _ hmax
        exact ⟨pre, c, post, heq, hpre, hpost, ie, hie, h⟩

/-- Claim C3 witness: the amended statement applied to the concrete tied
tree `CT3`. -/
theorem C3_witness :
    best_action CT3 = some TA.a1 ∧
    (∃ pre c post, node_children CT3 CT3.root_node_idx = pre ++ c :: post ∧
      (∀ z ∈ pre, visits_at CT3 z ≤ visits_at CT3 c) ∧
      (∀ z ∈ post, visits_at CT3 z < visits_at CT3 c) ∧
      ∃ ie, edge_to_parent CT3 c = some ie ∧ ie.2.weight.action = TA.a1) :=
  ⟨by decide, (C3_theorem CT3).2 TA.a1 (by decide)⟩

/-- Claim C4 (confirmed): on a duplicate-free visited path of valid node
indices, `back_propagate` succeeds, increments each visited node's
`num_visits` by exactly 1, changes its scores by the outcome's per-player
delta — `Winner p` adds 1 to `p`'s entry, `Draw D` adds 1 for each listed
player, `Escape` adds nothing — and leaves every node off the path
untouched. -/
theorem C4_theorem {S A P : Type} [DecidableEq P] :
    ∀ (visited : List Nat) (t : GameTree S A P) (oc : GOutcome P),
      (∀ i ∈ visited, i < t.nodes.length) → visited.Nodup →
      ∃ t2, back_propagate t visited oc = .ok t2 ∧
        t2.nodes.length = t.nodes.length ∧
        (∀ j, j ∉ visited → t2.nodes.get? j = t.nodes.get? j) ∧
        (∀ j ∈ visited, ∀ nd, t.nodes.get? j = some nd →
          ∃ nd2, t2.nodes.get? j = some nd2 ∧ nd2.state = nd.state ∧
            nd2.num_visits = nd.num_visits + 1 ∧
            ∀ p, getScore nd2.scores p = getScore nd.scores p + outcomeDelta oc p)
  | [], t, oc, hv, hnd =>
    ⟨t, rfl, rfl, fun _ _ => rfl, fun j hj => absurd hj (List.not_mem_nil j)⟩
  | idx :: rest, t, oc, hv, hnd => by
    have hidx : idx < t.nodes.length := hv idx (List.mem_cons_self _ _)
    have hnotmem : idx ∉ rest := (List.nodup_cons.mp hnd).1
    cases hnode : t.nodes.get? idx with
    | none =>
      rw [List.get?_eq_none] at hnode
      omega
    | some node =>
      obtain ⟨t3, heq, hnodes, hroot, hedges⟩ := back_propagate_cons t idx rest oc node hnode
      have hlen3 : t3.nodes.length = t.nodes.length := by
        rw [hnodes, List.length_set]
      obtain ⟨t2, h2, hlen2, hoff, hon⟩ := C4_theorem rest t3 oc
        (fun i hi => by
          rw [hlen3]
          exact hv i (List.mem_cons_of_mem _ hi))
        (List.nodup_cons.mp hnd).2
      have hget3ne : ∀ j, j ≠ idx → t3.nodes.get? j = t.nodes.get? j := by
        intro j hj
        rw [hnodes]
        exact List.get?_set_ne _ _ (fun hh => hj hh.symm)
      refine ⟨t2, ?_, ?_, ?_, ?_⟩
      · rw [heq, h2]
      · rw [hlen2, hlen3]
      · intro j hj
        have hj1 : j ≠ idx := fun hh => hj (hh ▸ List.mem_cons_self _ _)
        have hj2 : j ∉ rest := fun hh => hj (List.mem_cons_of_mem _ hh)
        rw [hoff j hj2, hget3ne j hj1]
      · intro j hj nd hnd2
        rcases List.mem_cons.mp hj with rfl | hjrest
        · have hnode2 : nd = node := by
            rw [hnode] at hnd2
            exact (Option.some.injEq _ _ ▸ hnd2).symm
          subst hnode2
          have : t2.nodes.get? j = t3.nodes.get? j := hoff j hnotmem
          rw [this, hnodes, List.get?_set_eq_of_lt _ hidx]
          exact ⟨_, rfl, rfl, rfl, fun p => getScore_applyOutcomeScores oc nd.scores p⟩
        · have hj1 : j ≠ idx := fun hh => hnotmem (hh ▸ hjrest)
          have : t3.nodes.get? j = some nd := by
            rw [hget3ne j hj1]
            exact hnd2
          exact hon j hjrest nd this

/-- The UCB1 sentinel characterisation: a node's value is the `f32::MAX`
sentinel exactly when the node exists and is unvisited. -/
theorem ucbt_value_eq_maxv_iff {S A P : Type} [DecidableEq P] (t : GameTree S A P) (idx : Nat)
    (persp : P) :
    ucbt_value t idx persp = FVal.maxv ↔
      ∃ nd, t.nodes.get? idx = some nd ∧ nd.num_visits = 0 := by
  unfold ucbt_value
  cases h : t.nodes.get? idx with
  | none => simp
  | some nd =>
    by_cases hv : nd.num_visits = 0 <;> simp [hv]

theorem ucbt_value_ne_minv {S A P : Type} [DecidableEq P] (t : GameTree S A P) (idx : Nat)
    (persp : P) : ucbt_value t idx persp ≠ FVal.minv := by
  unfold ucbt_value
  cases h : t.nodes.get? idx with
  | none => simp
  | some nd =>
    by_cases hv : nd.num_visits = 0 <;> simp [hv]

theorem FVal_gtB_minv (fg : FinGt) {v : FVal} (h : v ≠ FVal.minv) :
    FVal.gtB fg v FVal.minv = true := by
  cases v with
  | minv => exact absurd rfl h
  | finv e x => rfl
  | maxv => rfl

theorem FVal_gtB_maxv (fg : FinGt) (v : FVal) : FVal.gtB fg v FVal.maxv = false := by
  cases v <;> rfl

theorem selectFold_unvisited {S A P : Type} [DecidableEq P] (fg : FinGt) (t : GameTree S A P)
    (persp : P) :
    ∀ (l : List Nat) (acc : Option Nat × FVal),
      (acc.2 = FVal.maxv →
        ∃ x nd, acc.1 = some x ∧ t.nodes.get? x = some nd ∧ nd.num_visits = 0) →
      ((∃ c ∈ l, ∃ nd, t.nodes.get? c = some nd ∧ nd.num_visits = 0) ∨ acc.2 = FVal.maxv) →
      ∃ x nd, (l.foldl (selectStep fg t persp) acc).1 = some x ∧
        t.nodes.get? x = some nd ∧ nd.num_visits = 0
  | [], acc, hacc, hex => by
    rcases hex with ⟨c, hc, _⟩ | hmax
    · exact absurd hc (List.not_mem_nil c)
    · exact hacc hmax
  | c :: cs, acc, hacc, hex => by
    rw [List.foldl_cons]
    by_cases hucb : ucbt_value t c persp = FVal.maxv
    · by_cases haccmax : acc.2 = FVal.maxv
      · have hstep : selectStep fg t persp acc c = acc := by
          unfold selectStep
          rw [hucb, haccmax]
          rfl
        rw [hstep]
        exact selectFold_unvisited fg t persp cs acc hacc (Or.inr haccmax)
      · have hgt : FVal.gtB fg (ucbt_value t c persp) acc.2 = true := by
          rw [hucb]
          cases hacc2 : acc.2 with
          | minv => rfl
          | finv e x => rfl
          | maxv => exact absurd hacc2 haccmax
        have hstep : selectStep fg t persp acc c = (some c, ucbt_value t c persp) := by
          simp [selectStep, hgt]
        rw [hstep]
        obtain ⟨nd, hnd, hv0⟩ := (ucbt_value_eq_maxv_iff t c persp).mp hucb
        exact selectFold_unvisited fg t persp cs (some c, ucbt_value t c persp)
          (fun _ => ⟨c, nd, rfl, hnd, hv0⟩) (Or.inr hucb)
    · have hnext : (∃ c2 ∈ cs, ∃ nd, t.nodes.get? c2 = some nd ∧ nd.num_visits = 0) ∨
          acc.2 = FVal.maxv := by
        rcases hex with ⟨c2, hc2, nd2, hnd2, hv2⟩ | hmax
        · rcases List.mem_cons.mp hc2 with rfl | hc2cs
          · exact absurd ((ucbt_value_eq_maxv_iff t c2 persp).mpr ⟨nd2, hnd2, hv2⟩) hucb
          · exact Or.inl ⟨c2, hc2cs, nd2, hnd2, hv2⟩
        · exact Or.inr hmax
      by_cases hgt : FVal.gtB fg (ucbt_value t c persp) acc.2 = true
      · have haccne : acc.2 ≠ FVal.maxv := by
          intro hmax
          rw [hmax, FVal_gtB_maxv] at hgt
          cases hgt
        have hstep : selectStep fg t persp acc c = (some c, ucbt_value t c persp) := by
          simp [selectStep, hgt]
        rw [hstep]
        refine selectFold_unvisited fg t persp cs (some c, ucbt_value t c persp)
          (fun hmax2 => absurd hmax2 hucb) ?_
        rcases hnext with hl | hmax
        · exact Or.inl hl
        · exact absurd hmax haccne
      · have hstep : selectStep fg t persp acc c = acc := by
          rw [Bool.not_eq_true] at hgt
          simp [selectStep, hgt]
        rw [hstep]
        exact selectFold_unvisited fg t persp cs acc hacc hnext

/-- Claim C5 (confirmed): an unvisited node's UCB1 value is the maximal
sentinel (`f32::MAX`, the code's representation of infinite priority), no
value ever exceeds that sentinel, and whenever a node's children include an
unvisited child, `select` picks an unvisited child — i.e. before any sibling
with `num_visits ≥ 1`. -/
theorem C5_theorem {S A P : Type} [DecidableEq P] (fg : FinGt) (t : GameTree S A P)
    (persp : P) :
    (∀ idx nd, t.nodes.get? idx = some nd → nd.num_visits = 0 →
      ucbt_value t idx persp = FVal.maxv) ∧
    (∀ v : FVal, FVal.gtB fg v FVal.maxv = false) ∧
    (∀ parent c, c ∈ node_children t parent →
      (∃ nd, t.nodes.get? c = some nd ∧ nd.num_visits = 0) →
      ∃ sel nd2, select fg t parent persp = .ok sel ∧
        t.nodes.get? sel = some nd2 ∧ nd2.num_visits = 0) := by
  refine ⟨?_, FVal_gtB_maxv fg, ?_⟩
  · intro idx nd h hv
    exact (ucbt_value_eq_maxv_iff t idx persp).mpr ⟨nd, h, hv⟩
  · intro parent c hc hex
    obtain ⟨nd0, hnd0, hv0⟩ := hex
    obtain ⟨x, nd, hx, hnd, hv⟩ := selectFold_unvisited fg t persp (node_children t parent)
      ((none : Option Nat), FVal.minv)
      (fun hmax => absurd hmax (by decide))
      (Or.inl ⟨c, hc, nd0, hnd0, hv0⟩)
    refine ⟨x, nd, ?_, hnd, hv⟩
    unfold select
    simp only [hx]

/-- Claim C5 witness: in the tree `CT2` the root has a visited child (node
2) and an unvisited child (node 1); `select` picks the unvisited one. -/
theorem C5_witness :
    (1 ∈ node_children CT2 0) ∧
    (∃ nd, CT2.nodes.get? 1 = some nd ∧ nd.num_visits = 0) ∧
    (∃ sel nd2, select TG.finGt CT2 0 TP.p1 = .ok sel ∧
      CT2.nodes.get? sel = some nd2 ∧ nd2.num_visits = 0) :=
  ⟨by decide, by decide,
    (C5_theorem TG.finGt CT2 TP.p1).2.2 0 1 (by decide) (by decide)⟩

theorem lastConnecting_isSome {S A P : Type} (t : GameTree S A P) (c : Nat)
    (h : ∃ e ∈ t.edges, e.source = t.root_node_idx ∧ e.target = c) :
    ∃ e2, lastConnecting t c = some e2 := by
  unfold lastConnecting
  cases hl : (t.edges.filter (fun e => e.source == t.root_node_idx && e.target == c)).getLast?
    with
  | some x => exact ⟨x, rfl⟩
  | none =>
    rw [List.getLast?_eq_none_iff] at hl
    obtain ⟨e, he, hs, ht⟩ := h
    have hmemf : e ∈ t.edges.filter (fun e => e.source == t.root_node_idx && e.target == c) := by
      rw [List.mem_filter]
      refine ⟨he, ?_⟩
      rw [hs, ht]
      simp
    rw [hl] at hmemf
    exact absurd hmemf (List.not_mem_nil e)

theorem mem_childRecords {S A P : Type} (t : GameTree S A P) (c : Nat) (sc : Score A P) :
    sc ∈ childRecords t c ↔ ∃ nd e, t.nodes.get? c = some nd ∧ lastConnecting t c = some e ∧
      (sc.player, sc.score) ∈ nd.scores ∧ sc.num_visits = nd.num_visits ∧
      sc.action = e.weight.action := by
  unfold childRecords
  cases h1 : t.nodes.get? c with
  | none => simp
  | some nd =>
    cases h2 : lastConnecting t c with
    | none => simp
    | some e =>
      constructor
      · intro hmem
        obtain ⟨pv, hpv, hrec⟩ := List.mem_map.mp hmem
        subst hrec
        exact ⟨nd, e, rfl, rfl, hpv, rfl, rfl⟩
      · rintro ⟨nd2, e2, hnd2, he2, hmem, hvis, hact⟩
        rw [Option.some.injEq] at hnd2 he2
        subst hnd2
        subst he2
        rw [List.mem_map]
        refine ⟨(sc.player, sc.score), hmem, ?_⟩
        obtain ⟨sa, sp, ss, sv⟩ := sc
        simp only at hvis hact ⊢
        rw [hact, hvis]

theorem childRecords_length {S A P : Type} (t : GameTree S A P) (c : Nat) (nd : GTNode S P)
    (e : EdgeEntry A) (hnd : t.nodes.get? c = some nd) (he : lastConnecting t c = some e) :
    (childRecords t c).length = nd.scores.length := by
  unfold childRecords
  rw [hnd, he, List.length_map]

theorem childRecords_nil {S A P : Type} (t : GameTree S A P) (c : Nat) (nd : GTNode S P)
    (hnd : t.nodes.get? c = some nd) (hsc : nd.scores = []) : childRecords t c = [] := by
  unfold childRecords
  rw [hnd]
  cases lastConnecting t c with
  | none => rfl
  | some e => simp [hsc]

theorem rootScoresGo_spec {S A P : Type} (t : GameTree S A P) :
    ∀ (cs : List Nat),
      (∀ c ∈ cs, c < t.nodes.length ∧
        ∃ e ∈ t.edges, e.source = t.root_node_idx ∧ e.target = c) →
      rootScoresGo t cs = .ok (cs.flatMap (childRecords t))
  | [], _ => rfl
  | c :: cs, h => by
    have hc := h c (List.mem_cons_self _ _)
    cases hnd : t.nodes.get? c with
    | none =>
      rw [List.get?_eq_none] at hnd
      have := hc.1
      omega
    | some nd =>
      obtain ⟨e2, he2⟩ := lastConnecting_isSome t c hc.2
      rw [rootScoresGo, hnd, he2,
        rootScoresGo_spec t cs (fun c2 hc2 => h c2 (List.mem_cons_of_mem _ hc2))]
      simp only [Res.bind]
      rw [List.flatMap_cons]
      have hcr : childRecords t c = nd.scores.map (fun pv =>
          { action := e2.weight.action, player := pv.1, score := pv.2,
            num_visits := nd.num_visits }) := by
        unfold childRecords
        rw [hnd, he2]
      rw [hcr]

/-- Claim C10 (confirmed): `root_scores` emits exactly one record per
`(root-child, player)` entry of that child's score map — in child-iteration
order, with the child's edge action and visit count — and a root child with
an empty score map contributes no record at all: every emitted record comes
from a different child, regardless of the empty child's visit count. -/
theorem C10_theorem {S A P : Type} (t : GameTree S A P)
    (hwf : ∀ c ∈ node_children t t.root_node_idx, c < t.nodes.length) :
    root_scores t = .ok ((node_children t t.root_node_idx).flatMap (childRecords t)) ∧
    (∀ c ∈ node_children t t.root_node_idx, ∀ nd, t.nodes.get? c = some nd →
      (childRecords t c).length = nd.scores.length) ∧
    (∀ sc, sc ∈ (node_children t t.root_node_idx).flatMap (childRecords t) ↔
      ∃ c ∈ node_children t t.root_node_idx, ∃ nd e, t.nodes.get? c = some nd ∧
        lastConnecting t c = some e ∧ (sc.player, sc.score) ∈ nd.scores ∧
        sc.num_visits = nd.num_visits ∧ sc.action = e.weight.action) ∧
    (∀ c ∈ node_children t t.root_node_idx, ∀ nd, t.nodes.get? c = some nd →
      nd.scores = [] → childRecords t c = [] ∧
      ∀ sc ∈ (node_children t t.root_node_idx).flatMap (childRecords t),
        ∃ c2 ∈ node_children t t.root_node_idx, c2 ≠ c ∧ sc ∈ childRecords t c2) := by
  have hedge : ∀ c ∈ node_children t t.root_node_idx,
      ∃ e ∈ t.edges, e.source = t.root_node_idx ∧ e.target = c :=
    fun c hc => (mem_node_children t _ c).mp hc
  refine ⟨?_, ?_, ?_, ?_⟩
  · exact rootScoresGo_spec t _ (fun c hc => ⟨hwf c hc, hedge c hc⟩)
  · intro c hc nd hnd
    obtain ⟨e2, he2⟩ := lastConnecting_isSome t c (hedge c hc)
    exact childRecords_length t c nd e2 hnd he2
  · intro sc
    rw [List.mem_flatMap]
    constructor
    · rintro ⟨c, hc, hsc⟩
      obtain ⟨nd, e, h1, h2, h3, h4, h5⟩ := (mem_childRecords t c sc).mp hsc
      exact ⟨c, hc, nd, e, h1, h2, h3, h4, h5⟩
    · rintro ⟨c, hc, nd, e, h1, h2, h3, h4, h5⟩
      exact ⟨c, hc, (mem_childRecords t c sc).mpr ⟨nd, e, h1, h2, h3, h4, h5⟩⟩
  · intro c hc nd hnd hsc
    refine ⟨childRecords_nil t c nd hnd hsc, ?_⟩
    intro sc hmem
    obtain ⟨c2, hc2, hsc2⟩ := List.mem_flatMap.mp hmem
    refine ⟨c2, hc2, ?_, hsc2⟩
    intro hcc
    subst hcc
    rw [childRecords_nil t c2 nd hnd hsc] at hsc2
    exact absurd hsc2 (List.not_mem_nil sc)

/-- Claim C10 witness: the amended-free statement applied to the concrete
post-search tree `CT2`, whose root child node 1 has an empty score map. -/
theorem C10_witness :
    root_scores CT2 = .ok ((node_children CT2 CT2.root_node_idx).flatMap (childRecords CT2)) ∧
    (∀ c ∈ node_children CT2 CT2.root_node_idx, ∀ nd, CT2.nodes.get? c = some nd →
      (childRecords CT2 c).length = nd.scores.length) ∧
    (∀ sc, sc ∈ (node_children CT2 CT2.root_node_idx).flatMap (childRecords CT2) ↔
      ∃ c ∈ node_children CT2 CT2.root_node_idx, ∃ nd e, CT2.nodes.get? c = some nd ∧
        lastConnecting CT2 c = some e ∧ (sc.player, sc.score) ∈ nd.scores ∧
        sc.num_visits = nd.num_visits ∧ sc.action = e.weight.action) ∧
    (∀ c ∈ node_children CT2 CT2.root_node_idx, ∀ nd, CT2.nodes.get? c = some nd →
      nd.scores = [] → childRecords CT2 c = [] ∧
      ∀ sc ∈ (node_children CT2 CT2.root_node_idx).flatMap (childRecords CT2),
        ∃ c2 ∈ node_children CT2 CT2.root_node_idx, c2 ≠ c ∧ sc ∈ childRecords CT2 c2) :=
  C10_theorem CT2 (by decide)

theorem expandGo_get?_preserved {R S A P : Type} (g : Game R S A P) (idx : Nat) :
    ∀ (acts : List A) (rng : R) (t : GameTree S A P) (rng2 : R) (t2 : GameTree S A P),
      expandGo g idx acts rng t = .ok (rng2, t2) →
      ∀ j, j < t.nodes.length → t2.nodes.get? j = t.nodes.get? j
  | [], rng, t, rng2, t2, h, j, hj => by
    rw [expandGo, Res.ok.injEq, Prod.mk.injEq] at h
    rw [← h.2]
  | a :: rest, rng, t, rng2, t2, h, j, hj => by
    rw [expandGo] at h
    cases hnd : t.nodes.get? idx with
    | none =>
      rw [hnd] at h
      cases h
    | some node =>
      rw [hnd] at h
      dsimp only at h
      cases happ : g.applyAction rng node.state a with
      | mk os rngn =>
        rw [happ] at h
        cases os with
        | none =>
          simp only at h
          cases h
        | some s2 =>
          simp only at h
          have hj2 : j < (addChild t idx a s2).nodes.length := by
            simp only [addChild, List.length_append, List.length_cons, List.length_nil]
            omega
          have hpr := expandGo_get?_preserved g idx rest rngn (addChild t idx a s2) rng2 t2 h
            j hj2
          rw [hpr]
          simp only [addChild]
          exact List.get?_append hj

theorem expand_get?_preserved {R S A P : Type} (g : Game R S A P) (rng : R)
    (t : GameTree S A P) (idx : Nat) (rng2 : R) (t2 : GameTree S A P)
    (h : expand g rng t idx = .ok (rng2, t2)) :
    ∀ j, j < t.nodes.length → t2.nodes.get? j = t.nodes.get? j := by
  unfold expand at h
  cases hnd : t.nodes.get? idx with
  | none =>
    rw [hnd] at h
    cases h
  | some node =>
    rw [hnd] at h
    simp only at h
    by_cases hlen : ((g.actions node.state).length == 0) = true
    · rw [if_pos hlen] at h
      cases h
    · rw [if_neg hlen] at h
      exact expandGo_get?_preserved g idx _ rng t rng2 t2 h

/-- Claim C2 is refuted by the code: in `search`'s expansion branch the
rollout is invoked on the pre-expansion leaf's state, not on the newly
selected child's state.  Concretely, from a fresh tree on `TS.s0` the
selected child appended to the path is node 2 with state `w2` (its
statistics receive the propagated outcome), any rollout from `w2` yields
`Winner p2`, yet the tree records `Winner p1` at that child — the outcome of
the rollout from the parent state `s0`. -/
theorem C2_counterexample :
    search TG 4 0 (GameTree.new TS.s0) = .ok (1, CT2) ∧
    CT2.nodes.get? 2 = some { state := TS.w2, num_visits := 1, scores := [(TP.p1, 1)] } ∧
    random_rollout TG 4 TS.w2 0 = .ok (GOutcome.winner TP.p2, 0) ∧
    random_rollout TG 4 TS.s0 0 = .ok (GOutcome.winner TP.p1, 1) ∧
    GOutcome.winner TP.p1 ≠ GOutcome.winner TP.p2 := by decide

/-- Claim C2 (amended): whenever a `search` iteration reaches a non-terminal
leaf `cur` (with node value `node`), expands it, and selects the new child
`newIdx`, the back-propagated outcome is produced by `random_rollout`
started from the *pre-expansion leaf's* state `node.state` — the parent of
the newly selected child, whose index is nevertheless the one appended to
the visited path. -/
theorem C2_theorem {R S A P : Type} [DecidableEq P] (g : Game R S A P) (fuel : Nat) (rng : R)
    (t : GameTree S A P) (rootNode : GTNode S P)
    (hroot : t.nodes.get? t.root_node_idx = some rootNode)
    (cur : Nat) (visited : List Nat)
    (hdesc : descend g.finGt t (g.currentPlayer rootNode.state) fuel t.root_node_idx
      [t.root_node_idx] = .ok (cur, visited))
    (node : GTNode S P) (hnode : t.nodes.get? cur = some node)
    (hnonterm : g.outcome node.state = none)
    (rng2 : R) (t2 : GameTree S A P) (hexp : expand g rng t cur = .ok (rng2, t2))
    (newIdx : Nat)
    (hsel : select g.finGt t2 cur (g.currentPlayer rootNode.state) = .ok newIdx) :
    t2.nodes.get? cur = some node ∧
    search g fuel rng t =
      Res.bind (random_rollout g fuel node.state rng2) (fun or2 =>
        Res.bind (back_propagate t2 (visited ++ [newIdx]) or2.1)
          (fun t3 => .ok (or2.2, t3))) := by
  have hcurlt : cur < t.nodes.length := by
    rcases List.get?_eq_some.mp hnode with ⟨hlt, _⟩
    exact hlt
  have hcur2 : t2.nodes.get? cur = some node := by
    rw [expand_get?_preserved g rng t cur rng2 t2 hexp cur hcurlt]
    exact hnode
  refine ⟨hcur2, ?_⟩
  unfold search
  rw [hroot]
  dsimp only
  rw [hdesc]
  dsimp only [Res.bind]
  rw [hnode]
  dsimp only
  rw [hnonterm]
  dsimp only
  rw [hexp]
  dsimp only [Res.bind]
  rw [hsel]
  dsimp only [Res.bind]
  rw [hcur2]

/-- Claim C2 witness: the amended statement instantiated on the concrete
run of `TG` from a fresh tree, where the pre-expansion leaf is the root
(state `s0`) and the selected child is node 2. -/
theorem C2_witness :
    CT1.nodes.get? 0 = some { state := TS.s0, num_visits := 0, scores := [] } ∧
    search TG 4 0 (GameTree.new TS.s0) =
      Res.bind (random_rollout TG 4 TS.s0 0) (fun or2 =>
        Res.bind (back_propagate CT1 ([0] ++ [2]) or2.1)
          (fun t3 => .ok (or2.2, t3))) :=
  C2_theorem TG 4 0 (GameTree.new TS.s0) { state := TS.s0, num_visits := 0, scores := [] }
    (by decide) 0 [0] (by decide) { state := TS.s0, num_visits := 0, scores := [] } (by decide)
    (by decide) 0 CT1 (by decide) 2 (by decide)

theorem back_propagate_scoreInv {S A P : Type} [DecidableEq P] :
    ∀ (visited : List Nat) (t : GameTree S A P) (oc : GOutcome P) (t2 : GameTree S A P),
      drawNodup oc → ScoreInv t → back_propagate t visited oc = .ok t2 → ScoreInv t2
  | [], t, oc, t2, hoc, hinv, h => by
    rw [back_propagate_nil, Res.ok.injEq] at h
    rw [← h]
    exact hinv
  | idx :: rest, t, oc, t2, hoc, hinv, h => by
    cases hnode : t.nodes.get? idx with
    | none =>
      rw [back_propagate_cons_none t idx rest oc hnode] at h
      cases h
    | some node =>
      obtain ⟨t3, heq, hnodes, _, _⟩ := back_propagate_cons t idx rest oc node hnode
      rw [heq] at h
      refine back_propagate_scoreInv rest t3 oc t2 hoc ?_ h
      intro nd hnd p
      rw [hnodes] at hnd
      rcases List.mem_or_eq_of_mem_set hnd with hmem | rfl
      · exact hinv nd hmem p
      · simp only [getScore_applyOutcomeScores]
        have h1 : getScore node.scores p ≤ (node.num_visits : ℚ) :=
          hinv node (List.get?_mem hnode) p
        have h2 : outcomeDelta oc p ≤ 1 := outcomeDelta_le_one oc hoc p
        push_cast
        linarith

theorem expandGo_scoreInv {R S A P : Type} [DecidableEq P] (g : Game R S A P) (idx : Nat) :
    ∀ (acts : List A) (rng : R) (t : GameTree S A P) (rng2 : R) (t2 : GameTree S A P),
      ScoreInv t → expandGo g idx acts rng t = .ok (rng2, t2) → ScoreInv t2
  | [], rng, t, rng2, t2, hinv, h => by
    rw [expandGo, Res.ok.injEq, Prod.mk.injEq] at h
    rw [← h.2]
    exact hinv
  | a :: rest, rng, t, rng2, t2, hinv, h => by
    rw [expandGo] at h
    cases hnd : t.nodes.get? idx with
    | none =>
      rw [hnd] at h
      cases h
    | some node =>
      rw [hnd] at h
      dsimp only at h
      cases happ : g.applyAction rng node.state a with
      | mk os rngn =>
        rw [happ] at h
        cases os with
        | none =>
          simp only at h
          cases h
        | some s2 =>
          simp only at h
          refine expandGo_scoreInv g idx rest rngn _ rng2 t2 ?_ h
          intro nd hnd2 p
          simp only [addChild] at hnd2
          rcases List.mem_append.mp hnd2 with hmem | hmem
          · exact hinv nd hmem p
          · rcases List.mem_singleton.mp hmem with rfl
            simp [GTNode.new, getScore]

theorem expand_scoreInv {R S A P : Type} [DecidableEq P] (g : Game R S A P) (rng : R)
    (t : GameTree S A P) (idx : Nat) (rng2 : R) (t2 : GameTree S A P)
    (hinv : ScoreInv t) (h : expand g rng t idx = .ok (rng2, t2)) : ScoreInv t2 := by
  unfold expand at h
  cases hnd : t.nodes.get? idx with
  | none =>
    rw [hnd] at h
    cases h
  | some node =>
    rw [hnd] at h
    simp only at h
    by_cases hlen : ((g.actions node.state).length == 0) = true
    · rw [if_pos hlen] at h
      cases h
    · rw [if_neg hlen] at h
      exact expandGo_scoreInv g idx _ rng t rng2 t2 hinv h

theorem outcome_drawNodup {R S A P : Type} (g : Game R S A P)
    (hdraw : ∀ s ps, g.outcome s = some (GOutcome.draw ps) → ps.Nodup)
    (s : S) (oc : GOutcome P) (h : g.outcome s = some oc) : drawNodup oc := by
  cases oc with
  | winner p => trivial
  | draw ps => exact hdraw s ps h
  | escape m => trivial

theorem random_rollout_drawNodup {R S A P : Type} (g : Game R S A P)
    (hdraw : ∀ s ps, g.outcome s = some (GOutcome.draw ps) → ps.Nodup) (fuel : Nat) :
    ∀ (s : S) (rng : R) (oc : GOutcome P) (rng2 : R),
      random_rollout g fuel s rng = .ok (oc, rng2) → drawNodup oc := by
  induction fuel with
  | zero =>
    intro s rng oc rng2 h
    rw [random_rollout] at h
    cases hoc : g.outcome s with
    | some oc0 =>
      rw [hoc, Res.ok.injEq, Prod.mk.injEq] at h
      rw [← h.1]
      exact outcome_drawNodup g hdraw s oc0 hoc
    | none =>
      rw [hoc] at h
      dsimp only at h
      cases hacts : g.actions s with
      | nil =>
        rw [hacts] at h
        rw [Res.ok.injEq, Prod.mk.injEq] at h
        rw [← h.1]
        trivial
      | cons a rest =>
        rw [hacts] at h
        dsimp only at h
        split at h
        · cases h
        · cases h
  | succ f ih =>
    intro s rng oc rng2 h
    rw [random_rollout] at h
    cases hoc : g.outcome s with
    | some oc0 =>
      rw [hoc, Res.ok.injEq, Prod.mk.injEq] at h
      rw [← h.1]
      exact outcome_drawNodup g hdraw s oc0 hoc
    | none =>
      rw [hoc] at h
      dsimp only at h
      cases hacts : g.actions s with
      | nil =>
        rw [hacts] at h
        rw [Res.ok.injEq, Prod.mk.injEq] at h
        rw [← h.1]
        trivial
      | cons a rest =>
        rw [hacts] at h
        dsimp only at h
        split at h
        · cases h
        · exact ih _ _ oc rng2 h

theorem search_scoreInv {R S A P : Type} [DecidableEq P] (g : Game R S A P)
    (hdraw : ∀ s ps, g.outcome s = some (GOutcome.draw ps) → ps.Nodup)
    (fuel : Nat) (rng : R) (t : GameTree S A P) (rng2 : R) (t2 : GameTree S A P)
    (hinv : ScoreInv t) (h : search g fuel rng t = .ok (rng2, t2)) : ScoreInv t2 := by
  unfold search at h
  cases hroot : t.nodes.get? t.root_node_idx with
  | none =>
    rw [hroot] at h
    cases h
  | some rootNode =>
    rw [hroot] at h
    dsimp only at h
    cases hdesc : descend g.finGt t (g.currentPlayer rootNode.state) fuel t.root_node_idx
        [t.root_node_idx] with
    | panic m =>
      rw [hdesc] at h
      dsimp only [Res.bind] at h
      cases h
    | noFuel =>
      rw [hdesc] at h
      dsimp only [Res.bind] at h
      cases h
    | ok cv =>
      rw [hdesc] at h
      dsimp only [Res.bind] at h
      cases hnodeC : t.nodes.get? cv.1 with
      | none =>
        rw [hnodeC] at h
        cases h
      | some node =>
        rw [hnodeC] at h
        dsimp only at h
        cases houtcome : g.outcome node.state with
        | some oc =>
          rw [houtcome] at h
          dsimp only at h
          cases hbp : back_propagate t cv.2 oc with
          | ok t3 =>
            rw [hbp] at h
            dsimp only [Res.bind] at h
            rw [Res.ok.injEq, Prod.mk.injEq] at h
            rw [← h.2]
            exact back_propagate_scoreInv cv.2 t oc t3
              (outcome_drawNodup g hdraw node.state oc houtcome) hinv hbp
          | panic m =>
            rw [hbp] at h
            dsimp only [Res.bind] at h
            cases h
          | noFuel =>
            rw [hbp] at h
            dsimp only [Res.bind] at h
            cases h
        | none =>
          rw [houtcome] at h
          dsimp only at h
          cases hexp : expand g rng t cv.1 with
          | panic m =>
            rw [hexp] at h
            dsimp only [Res.bind] at h
            cases h
          | noFuel =>
            rw [hexp] at h
            dsimp only [Res.bind] at h
            cases h
          | ok rt =>
            rw [hexp] at h
            dsimp only [Res.bind] at h
            obtain ⟨rngE, tE⟩ := rt
            have hinvE : ScoreInv tE := expand_scoreInv g rng t cv.1 rngE tE hinv hexp
            cases hsel : select g.finGt tE cv.1 (g.currentPlayer rootNode.state) with
            | panic m =>
              rw [hsel] at h
              dsimp only [Res.bind] at h
              cases h
            | noFuel =>
              rw [hsel] at h
              dsimp only [Res.bind] at h
              cases h
            | ok newIdx =>
              rw [hsel] at h
              dsimp only [Res.bind] at h
              cases hn2 : tE.nodes.get? cv.1 with
              | none =>
                rw [hn2] at h
                cases h
              | some node2 =>
                rw [hn2] at h
                dsimp only at h
                cases hroll : random_rollout g fuel node2.state rngE with
                | panic m =>
                  rw [hroll] at h
                  dsimp only [Res.bind] at h
                  cases h
                | noFuel =>
                  rw [hroll] at h
                  dsimp only [Res.bind] at h
                  cases h
                | ok ocr =>
                  rw [hroll] at h
                  dsimp only [Res.bind] at h
                  obtain ⟨oc2, rngR⟩ := ocr
                  cases hbp : back_propagate tE (cv.2 ++ [newIdx]) oc2 with
                  | panic m =>
                    rw [hbp] at h
                    dsimp only [Res.bind] at h
                    cases h
                  | noFuel =>
                    rw [hbp] at h
                    dsimp only [Res.bind] at h
                    cases h
                  | ok t3 =>
                    rw [hbp] at h
                    dsimp only [Res.bind] at h
                    rw [Res.ok.injEq, Prod.mk.injEq] at h
                    rw [← h.2]
                    exact back_propagate_scoreInv (cv.2 ++ [newIdx]) tE oc2 t3
                      (random_rollout_drawNodup g hdraw fuel node2.state rngE oc2 rngR hroll)
                      hinvE hbp

theorem search_n_scoreInv {R S A P : Type} [DecidableEq P] (g : Game R S A P)
    (hdraw : ∀ s ps, g.outcome s = some (GOutcome.draw ps) → ps.Nodup) (fuel : Nat) :
    ∀ (k : Nat) (rng : R) (t : GameTree S A P) (rng2 : R) (t2 : GameTree S A P),
      ScoreInv t → search_n g fuel rng t k = .ok (rng2, t2) → ScoreInv t2
  | 0, rng, t, rng2, t2, hinv, h => by
    rw [search_n, Res.ok.injEq, Prod.mk.injEq] at h
    rw [← h.2]
    exact hinv
  | k + 1, rng, t, rng2, t2, hinv, h => by
    rw [search_n] at h
    cases hs : search g fuel rng t with
    | panic m =>
      rw [hs] at h
      dsimp only [Res.bind] at h
      cases h
    | noFuel =>
      rw [hs] at h
      dsimp only [Res.bind] at h
      cases h
    | ok rt =>
      rw [hs] at h
      dsimp only [Res.bind] at h
      exact search_n_scoreInv g hdraw fuel k rt.1 rt.2 rng2 t2
        (search_scoreInv g hdraw fuel rng t rt.1 rt.2 hinv (by rw [hs])) h

/-- Claim C6 (confirmed): starting from a fresh tree, after any number of
search iterations every node satisfies `scores[p] ≤ num_visits` for every
player `p`, under the game contract that `Draw` outcomes list each drawing
player once (the spec's "Draw(set of P)"): each visit adds at most 1.0 to
any single player's score for every outcome variant. -/
theorem C6_theorem {R S A P : Type} [DecidableEq P] (g : Game R S A P)
    (hdraw : ∀ s ps, g.outcome s = some (GOutcome.draw ps) → ps.Nodup)
    (fuel : Nat) (rng : R) (s : S) (k : Nat) (rng2 : R) (t2 : GameTree S A P)
    (h : search_n g fuel rng (GameTree.new s) k = .ok (rng2, t2)) :
    ∀ nd ∈ t2.nodes, ∀ p, getScore nd.scores p ≤ (nd.num_visits : ℚ) := by
  refine search_n_scoreInv g hdraw fuel k rng (GameTree.new s) rng2 t2 ?_ h
  intro nd hnd p
  rcases List.mem_singleton.mp hnd with rfl
  simp [GTNode.new, getScore]

/-- Claim C6 witness: one search iteration of the concrete game, with the
resulting tree's statistics checked against the bound. -/
theorem C6_witness :
    search_n TG 8 0 (GameTree.new TS.s0) 1 = .ok (1, CT2) ∧
    (∀ nd ∈ CT2.nodes, ∀ p, getScore nd.scores p ≤ (nd.num_visits : ℚ)) :=
  ⟨by decide,
    C6_theorem TG (fun s ps h => by cases s <;> exact nomatch h) 8 0 TS.s0 1 1 CT2 (by decide)⟩

theorem getD_mem_of_lt {α : Type} :
    ∀ (l : List α) (i : Nat) (d : α), i < l.length → l.getD i d ∈ l
  | [], i, d, h => absurd h (by simp)
  | a :: l, 0, d, h => List.mem_cons_self _ _
  | a :: l, i + 1, d, h =>
    List.mem_cons_of_mem _ (getD_mem_of_lt l i d (by simpa using h))

theorem selectFold_acc {S A P : Type} [DecidableEq P] (fg : FinGt) (t : GameTree S A P)
    (persp : P) :
    ∀ (l : List Nat) (acc : Option Nat × FVal),
      (l.foldl (selectStep fg t persp) acc).1 = acc.1 ∨
      ∃ y ∈ l, (l.foldl (selectStep fg t persp) acc).1 = some y
  | [], acc => Or.inl rfl
  | c :: cs, acc => by
    rw [List.foldl_cons]
    rcases selectFold_acc fg t persp cs (selectStep fg t persp acc c) with h | ⟨y, hy, h⟩
    · rw [h]
      unfold selectStep
      dsimp only
      by_cases hgt : FVal.gtB fg (ucbt_value t c persp) acc.2 = true
      · rw [if_pos hgt]
        exact Or.inr ⟨c, List.mem_cons_self _ _, rfl⟩
      · rw [if_neg hgt]
        exact Or.inl rfl
    · exact Or.inr ⟨y, List.mem_cons_of_mem _ hy, h⟩

theorem select_ok {S A P : Type} [DecidableEq P] (fg : FinGt) (t : GameTree S A P) (idx : Nat)
    (persp : P) (hne : node_children t idx ≠ []) :
    ∃ c, select fg t idx persp = .ok c ∧ c ∈ node_children t idx := by
  rcases hch : node_children t idx with _ | ⟨c0, cs⟩
  · exact absurd hch hne
  · have hstep : selectStep fg t persp ((none : Option Nat), FVal.minv) c0 =
        (some c0, ucbt_value t c0 persp) := by
      unfold selectStep
      dsimp only
      rw [if_pos (FVal_gtB_minv fg (ucbt_value_ne_minv t c0 persp))]
    rcases selectFold_acc fg t persp cs (some c0, ucbt_value t c0 persp) with h | ⟨y, hy, h⟩
    · refine ⟨c0, ?_, List.mem_cons_self _ _⟩
      unfold select
      rw [hch]
      simp only [List.foldl_cons, hstep, h]
    · refine ⟨y, ?_, List.mem_cons_of_mem _ hy⟩
      unfold select
      rw [hch]
      simp only [List.foldl_cons, hstep, h]

theorem descend_spec {S A P : Type} [DecidableEq P] (fg : FinGt) (t : GameTree S A P)
    (persp : P) (hwf : WF t) (fuel : Nat) :
    ∀ (cur : Nat) (vis : List Nat), cur < t.nodes.length →
      (∀ i ∈ vis, i < t.nodes.length) →
      (descend fg t persp fuel cur vis).isPanic = false ∧
      ∀ cv, descend fg t persp fuel cur vis = .ok cv →
        cv.1 < t.nodes.length ∧ (∀ i ∈ cv.2, i < t.nodes.length) ∧
        is_leaf_node t cv.1 = true := by
  induction fuel with
  | zero =>
    intro cur vis hcur hvis
    rw [descend]
    by_cases hleaf : is_leaf_node t cur = true
    · rw [if_pos hleaf]
      refine ⟨rfl, fun cv hcv => ?_⟩
      rw [Res.ok.injEq] at hcv
      subst hcv
      exact ⟨hcur, hvis, hleaf⟩
    · rw [if_neg hleaf]
      exact ⟨rfl, fun cv hcv => by cases hcv⟩
  | succ f ih =>
    intro cur vis hcur hvis
    rw [descend]
    by_cases hleaf : is_leaf_node t cur = true
    · rw [if_pos hleaf]
      refine ⟨rfl, fun cv hcv => ?_⟩
      rw [Res.ok.injEq] at hcv
      subst hcv
      exact ⟨hcur, hvis, hleaf⟩
    · rw [if_neg hleaf]
      have hne := node_children_ne_nil_of_not_leaf t cur (Bool.not_eq_true _ ▸ hleaf)
      obtain ⟨c, hsel, hcmem⟩ := select_ok fg t cur persp hne
      simp only [hsel]
      have hclt : c < t.nodes.length := by
        obtain ⟨e, he, hs, ht⟩ := (mem_node_children t cur c).mp hcmem
        exact ht ▸ (hwf.2 e he).2
      exact ih c (vis ++ [c]) hclt (by
        intro i hi
        rcases List.mem_append.mp hi with hi1 | hi2
        · exact hvis i hi1
        · rcases List.mem_singleton.mp hi2 with rfl
          exact hclt)

theorem expandGo_ok {R S A P : Type} (g : Game R S A P) (idx : Nat) (node0 : GTNode S P)
    (H2 : ∀ (r : R) (s : S) (a : A), a ∈ g.actions s → ((g.applyAction r s a).1).isSome = true) :
    ∀ (acts : List A) (rng : R) (t : GameTree S A P),
      t.nodes.get? idx = some node0 →
      (∀ a ∈ acts, a ∈ g.actions node0.state) →
      ∃ rng2 t2, expandGo g idx acts rng t = .ok (rng2, t2) ∧
        t.nodes.length ≤ t2.nodes.length ∧
        t2.root_node_idx = t.root_node_idx ∧
        (∀ j, j < t.nodes.length → t2.nodes.get? j = t.nodes.get? j) ∧
        (∀ e ∈ t2.edges, e ∈ t.edges ∨ (e.source = idx ∧ e.target < t2.nodes.length)) ∧
        (∀ e ∈ t.edges, e ∈ t2.edges) ∧
        (acts ≠ [] → ∃ e ∈ t2.edges, e.source = idx)
  | [], rng, t, hnode, hacts =>
    ⟨rng, t, rfl, le_refl _, rfl, fun j hj => rfl, fun e he => Or.inl he, fun e he => he,
      fun hne => absurd rfl hne⟩
  | a :: rest, rng, t, hnode, hacts => by
    have hidx : idx < t.nodes.length := (List.get?_eq_some.mp hnode).1
    rw [expandGo, hnode]
    dsimp only
    have hmem : a ∈ g.actions node0.state := hacts a (List.mem_cons_self _ _)
    have hsome := H2 rng node0.state a hmem
    cases happ : g.applyAction rng node0.state a with
    | mk os rngn =>
      cases os with
      | none =>
        rw [happ] at hsome
        simp at hsome
      | some s2 =>
        dsimp only
        have hnode2 : (addChild t idx a s2).nodes.get? idx = some node0 := by
          simp only [addChild]
          rw [List.get?_append hidx]
          exact hnode
        obtain ⟨rng2, t2, heq, hlen, hroot2, hpres, hedges, hmono, hnonempty⟩ :=
          expandGo_ok g idx node0 H2 rest rngn (addChild t idx a s2) hnode2
            (fun b hb => hacts b (List.mem_cons_of_mem _ hb))
        have hlen1 : (addChild t idx a s2).nodes.length = t.nodes.length + 1 := by
          simp [addChild]
        refine ⟨rng2, t2, heq, ?_, ?_, ?_, ?_, ?_, ?_⟩
        · calc t.nodes.length ≤ t.nodes.length + 1 := Nat.le_succ _
            _ = (addChild t idx a s2).nodes.length := hlen1.symm
            _ ≤ t2.nodes.length := hlen
        · rw [hroot2]
          simp [addChild]
        · intro j hj
          have hj2 : j < (addChild t idx a s2).nodes.length := by
            rw [hlen1]
            omega
          rw [hpres j hj2]
          simp only [addChild]
          exact List.get?_append hj
        · intro e he
          rcases hedges e he with hmem2 | ⟨hs, ht⟩
          · simp only [addChild] at hmem2
            rcases List.mem_append.mp hmem2 with hm | hm
            · exact Or.inl hm
            · rcases List.mem_singleton.mp hm with rfl
              refine Or.inr ⟨rfl, ?_⟩
              calc t.nodes.length < t.nodes.length + 1 := Nat.lt_succ_self _
                _ = (addChild t idx a s2).nodes.length := hlen1.symm
                _ ≤ t2.nodes.length := hlen
          · exact Or.inr ⟨hs, ht⟩
        · intro e he
          refine hmono e ?_
          simp only [addChild]
          exact List.mem_append_left _ he
        · intro _
          refine ⟨{ source := idx, target := t.nodes.length, weight := GTEdge.new a },
            hmono _ ?_, rfl⟩
          simp only [addChild]
          exact List.mem_append_right _ (List.mem_cons_self _ _)

theorem expand_ok {R S A P : Type} (g : Game R S A P)
    (H1 : ∀ s, g.outcome s = none → g.actions s ≠ [])
    (H2 : ∀ (r : R) (s : S) (a : A), a ∈ g.actions s → ((g.applyAction r s a).1).isSome = true)
    (t : GameTree S A P) (idx : Nat) (node0 : GTNode S P)
    (hnode : t.nodes.get? idx = some node0) (hnonterm : g.outcome node0.state = none)
    (hwf : WF t) (rng : R) :
    ∃ rng2 t2, expand g rng t idx = .ok (rng2, t2) ∧ WF t2 ∧
      (∀ j, j < t.nodes.length → t2.nodes.get? j = t.nodes.get? j) ∧
      t.nodes.length ≤ t2.nodes.length ∧
      node_children t2 idx ≠ [] := by
  unfold expand
  rw [hnode]
  dsimp only
  have hne : g.actions node0.state ≠ [] := H1 node0.state hnonterm
  have hlenne : ¬ (((g.actions node0.state).length == 0) = true) := by
    cases hacts2 : g.actions node0.state with
    | nil => exact absurd hacts2 hne
    | cons b bs => exact fun hh => by simp at hh
  rw [if_neg hlenne]
  obtain ⟨rng2, t2, heq, hlen, hroot2, hpres, hedges, hmono, hnonempty⟩ :=
    expandGo_ok g idx node0 H2 (g.actions node0.state) rng t hnode (fun a ha => ha)
  refine ⟨rng2, t2, heq, ⟨?_, ?_⟩, hpres, hlen, ?_⟩
  · rw [hroot2]
    exact lt_of_lt_of_le hwf.1 hlen
  · intro e he
    rcases hedges e he with hmem | ⟨hs, ht⟩
    · obtain ⟨h1, h2⟩ := hwf.2 e hmem
      exact ⟨lt_of_lt_of_le h1 hlen, lt_of_lt_of_le h2 hlen⟩
    · have hidx : idx < t.nodes.length := (List.get?_eq_some.mp hnode).1
      exact ⟨hs ▸ lt_of_lt_of_le hidx hlen, ht⟩
  · obtain ⟨e, he, hs⟩ := hnonempty hne
    intro hnil
    have hm := (mem_node_children t2 idx e.target).mpr ⟨e, he, hs, rfl⟩
    rw [hnil] at hm
    exact absurd hm (List.not_mem_nil _)

theorem random_rollout_no_panic {R S A P : Type} (g : Game R S A P)
    (H2 : ∀ (r : R) (s : S) (a : A), a ∈ g.actions s → ((g.applyAction r s a).1).isSome = true)
    (fuel : Nat) :
    ∀ (s : S) (rng : R), (random_rollout g fuel s rng).isPanic = false := by
  induction fuel with
  | zero =>
    intro s rng
    rw [random_rollout]
    cases hoc : g.outcome s with
    | some oc => rfl
    | none =>
      dsimp only
      cases hacts : g.actions s with
      | nil => rfl
      | cons a rest =>
        dsimp only
        split
        · next snd heq =>
          have hch : (a :: rest).getD
              ((g.genRange rng (rest.length + 1)).1 % (rest.length + 1)) a ∈ g.actions s := by
            rw [hacts]
            exact getD_mem_of_lt _ _ _ (by
              simp only [List.length_cons]
              exact Nat.mod_lt _ (Nat.succ_pos rest.length))
          have hh := H2 (g.genRange rng (rest.length + 1)).2 s _ hch
          rw [heq] at hh
          simp at hh
        · next s2 rng3 heq =>
          rfl
  | succ f ih =>
    intro s rng
    rw [random_rollout]
    cases hoc : g.outcome s with
    | some oc => rfl
    | none =>
      dsimp only
      cases hacts : g.actions s with
      | nil => rfl
      | cons a rest =>
        dsimp only
        split
        · next snd heq =>
          have hch : (a :: rest).getD
              ((g.genRange rng (rest.length + 1)).1 % (rest.length + 1)) a ∈ g.actions s := by
            rw [hacts]
            exact getD_mem_of_lt _ _ _ (by
              simp only [List.length_cons]
              exact Nat.mod_lt _ (Nat.succ_pos rest.length))
          have hh := H2 (g.genRange rng (rest.length + 1)).2 s _ hch
          rw [heq] at hh
          simp at hh
        · next s2 rng3 heq =>
          exact ih s2 rng3

theorem search_ok {R S A P : Type} [DecidableEq P] (g : Game R S A P)
    (H1 : ∀ s, g.outcome s = none → g.actions s ≠ [])
    (H2 : ∀ (r : R) (s : S) (a : A), a ∈ g.actions s → ((g.applyAction r s a).1).isSome = true)
    (fuel : Nat) (rng : R) (t : GameTree S A P) (hwf : WF t) :
    (search g fuel rng t).isPanic = false ∧
    ∀ rt, search g fuel rng t = .ok rt → WF rt.2 := by
  unfold search
  cases hroot : t.nodes.get? t.root_node_idx with
  | none =>
    rw [List.get?_eq_none] at hroot
    exact absurd hwf.1 (Nat.not_lt.mpr hroot)
  | some rootNode =>
    dsimp only
    obtain ⟨hdpanic, hdok⟩ := descend_spec g.finGt t (g.currentPlayer rootNode.state) hwf fuel
      t.root_node_idx [t.root_node_idx] hwf.1
      (by
        intro i hi
        rcases List.mem_singleton.mp hi with rfl
        exact hwf.1)
    cases hdesc : descend g.finGt t (g.currentPlayer rootNode.state) fuel t.root_node_idx
        [t.root_node_idx] with
    | panic m =>
      rw [hdesc] at hdpanic
      cases hdpanic
    | noFuel =>
      dsimp only [Res.bind]
      exact ⟨rfl, fun rt hrt => by cases hrt⟩
    | ok cv =>
      obtain ⟨hcv1, hcv2, hleaf⟩ := hdok cv hdesc
      dsimp only [Res.bind]
      cases hnodeC : t.nodes.get? cv.1 with
      | none =>
        rw [List.get?_eq_none] at hnodeC
        exact absurd hcv1 (Nat.not_lt.mpr hnodeC)
      | some node =>
        dsimp only
        cases houtcome : g.outcome node.state with
        | some oc =>
          dsimp only
          obtain ⟨t3, hbp, hlen3, hroot3, hedges3⟩ := back_propagate_ok cv.2 t oc hcv2
          rw [hbp]
          dsimp only [Res.bind]
          refine ⟨rfl, fun rt hrt => ?_⟩
          rw [Res.ok.injEq] at hrt
          subst hrt
          refine ⟨?_, ?_⟩
          · rw [hroot3, hlen3]
            exact hwf.1
          · intro e he
            obtain ⟨e0, he0, hs0, ht0⟩ := hedges3 e he
            obtain ⟨h1, h2⟩ := hwf.2 e0 he0
            rw [hlen3]
            exact ⟨hs0 ▸ h1, ht0 ▸ h2⟩
        | none =>
          dsimp only
          obtain ⟨rngE, tE, hexp, hwfE, hpres, hlenE, hchildE⟩ :=
            expand_ok g H1 H2 t cv.1 node hnodeC houtcome hwf rng
          rw [hexp]
          dsimp only [Res.bind]
          obtain ⟨newIdx, hsel, hselmem⟩ := select_ok g.finGt tE cv.1
            (g.currentPlayer rootNode.state) hchildE
          rw [hsel]
          dsimp only [Res.bind]
          have hn2 : tE.nodes.get? cv.1 = some node := by
            rw [hpres cv.1 hcv1]
            exact hnodeC
          rw [hn2]
          dsimp only
          have hnewlt : newIdx < tE.nodes.length := by
            obtain ⟨e, he, hs, ht⟩ := (mem_node_children tE cv.1 newIdx).mp hselmem
            exact ht ▸ (hwfE.2 e he).2
          cases hroll : random_rollout g fuel node.state rngE with
          | panic m =>
            have hnp := random_rollout_no_panic g H2 fuel node.state rngE
            rw [hroll] at hnp
            cases hnp
          | noFuel =>
            dsimp only [Res.bind]
            exact ⟨rfl, fun rt hrt => by cases hrt⟩
          | ok ocr =>
            dsimp only [Res.bind]
            obtain ⟨t3, hbp, hlen3, hroot3, hedges3⟩ := back_propagate_ok (cv.2 ++ [newIdx]) tE
              ocr.1
              (by
                intro i hi
                rcases List.mem_append.mp hi with hi1 | hi2
                · exact lt_of_lt_of_le (hcv2 i hi1) hlenE
                · rcases List.mem_singleton.mp hi2 with rfl
                  exact hnewlt)
            rw [hbp]
            dsimp only [Res.bind]
            refine ⟨rfl, fun rt hrt => ?_⟩
            rw [Res.ok.injEq] at hrt
            subst hrt
            refine ⟨?_, ?_⟩
            · rw [hroot3, hlen3]
              exact hwfE.1
            · intro e he
              obtain ⟨e0, he0, hs0, ht0⟩ := hedges3 e he
              obtain ⟨h1, h2⟩ := hwfE.2 e0 he0
              rw [hlen3]
              exact ⟨hs0 ▸ h1, ht0 ▸ h2⟩

theorem search_n_ok {R S A P : Type} [DecidableEq P] (g : Game R S A P)
    (H1 : ∀ s, g.outcome s = none → g.actions s ≠ [])
    (H2 : ∀ (r : R) (s : S) (a : A), a ∈ g.actions s → ((g.applyAction r s a).1).isSome = true)
    (fuel : Nat) :
    ∀ (k : Nat) (rng : R) (t : GameTree S A P), WF t →
      (search_n g fuel rng t k).isPanic = false ∧
      ∀ rt, search_n g fuel rng t k = .ok rt → WF rt.2
  | 0, rng, t, hwf =>
    ⟨rfl, fun rt hrt => by
      rw [search_n, Res.ok.injEq] at hrt
      subst hrt
      exact hwf⟩
  | k + 1, rng, t, hwf => by
    rw [search_n]
    obtain ⟨hp, hok⟩ := search_ok g H1 H2 fuel rng t hwf
    cases hs : search g fuel rng t with
    | panic m =>
      rw [hs] at hp
      cases hp
    | noFuel =>
      dsimp only [Res.bind]
      exact ⟨rfl, fun rt hrt => by cases hrt⟩
    | ok rt1 =>
      dsimp only [Res.bind]
      exact search_n_ok g H1 H2 fuel k rt1.1 rt1.2 (hok rt1 hs)

/-- Claim C8 (confirmed): under the game contract — `actions()` non-empty on
every non-terminal state and `apply_action` succeeding on every legal
action — `search` and `search_n` on a well-formed tree never reach a failing
branch: no `select` panic, no empty-actions fail-fast in `expand`, no
`unwrap` failure in `expand` or in the rollout, and no dangling-index panic
(fuel exhaustion aside, which is an artefact of the embedding's loop
bounds). -/
theorem C8_theorem {R S A P : Type} [DecidableEq P] (g : Game R S A P)
    (H1 : ∀ s, g.outcome s = none → g.actions s ≠ [])
    (H2 : ∀ (r : R) (s : S) (a : A), a ∈ g.actions s → ((g.applyAction r s a).1).isSome = true)
    (t : GameTree S A P) (hwf : WF t) (fuel : Nat) (rng : R) (k : Nat) :
    (search g fuel rng t).isPanic = false ∧ (search_n g fuel rng t k).isPanic = false :=
  ⟨(search_ok g H1 H2 fuel rng t hwf).1, (search_n_ok g H1 H2 fuel k rng t hwf).1⟩

/-- Claim C8 witness: the concrete game satisfies the contract, and two
search iterations from a fresh well-formed tree panic nowhere. -/
theorem C8_witness :
    (search TG 4 0 (GameTree.new TS.s0)).isPanic = false ∧
    (search_n TG 4 0 (GameTree.new TS.s0) 2).isPanic = false :=
  C8_theorem TG (by intro s; cases s <;> decide)
    (fun r s a _ => by cases s <;> cases a <;> rfl)
    (GameTree.new TS.s0)
    ⟨Nat.one_pos, fun e he => absurd he (List.not_mem_nil e)⟩ 4 0 2

/-- Claim C4 witness: back-propagating `Winner p1` along the concrete path
`[0, 2]` of the expanded tree `CT1`. -/
theorem C4_witness :
    (∀ i ∈ ([0, 2] : List Nat), i < CT1.nodes.length) ∧
    ([0, 2] : List Nat).Nodup ∧
    (∃ t2, back_propagate CT1 [0, 2] (GOutcome.winner TP.p1) = .ok t2 ∧
      t2.nodes.length = CT1.nodes.length ∧
      (∀ j, j ∉ ([0, 2] : List Nat) → t2.nodes.get? j = CT1.nodes.get? j) ∧
      (∀ j ∈ ([0, 2] : List Nat), ∀ nd, CT1.nodes.get? j = some nd →
        ∃ nd2, t2.nodes.get? j = some nd2 ∧ nd2.state = nd.state ∧
          nd2.num_visits = nd.num_visits + 1 ∧
          ∀ p, getScore nd2.scores p =
            getScore nd.scores p + outcomeDelta (GOutcome.winner TP.p1) p)) :=
  ⟨by decide, by decide,
    C4_theorem [0, 2] CT1 (GOutcome.winner TP.p1) (by decide) (by decide)⟩

end BgAi
